import Mathlib

/-!
Shallow embedding of the connect4 parallel-search program: board rules
(board.py), search-tree nodes (tree.py), the search engine
(controller.py), task generation (parallel.py) and the game loop
(game.py), together with theorems checking the specification's claims.
Python integers are modelled as `Int`, numpy cell values as `Int`
(they are always 0 or ±1), a raised exception as `Except.error ()`.
-/

namespace Connect4

/-- Length of the maximal prefix of `l` every element of which equals `p`. -/
def prefixRun (p : Int) : List Int → Nat
  | [] => 0
  | x :: xs => if x = p then prefixRun p xs + 1 else 0

/-- Models the first loop of `Board._count` (board.py): walk positions
`position-1, …, 0` and count until a cell differs from `player`. -/
def countLeft (arr : List Int) (player : Int) : Nat → Nat
  | 0 => 0
  | i + 1 => if arr.getD i 0 = player then countLeft arr player i + 1 else 0

/-- Embedding of `Board._count` (board.py): middle-out contiguous count from
`position`; the second loop (positions right of `position`) is the maximal
`player`-prefix of the list dropped past `position`. -/
def _count (arr : List Int) (position : Nat) (player : Int) : Nat :=
  1 + countLeft arr player position + prefixRun player (arr.drop (position + 1))

/-- Embedding of the `Board` class state (board.py): the 7×7 grid (`state`,
row-major, row 0 on top) and the per-column lowest empty row (`last_rows`). -/
structure Board where
  state : List (List Int)
  last_rows : List Int
deriving DecidableEq

def Board.width : Int := 7

def Board.height : Int := 7

def Board.win_count : Nat := 4

def Board.NOT_SET : Int := 0

def Board.PLAYER_1 : Int := 1

def Board.PLAYER_2 : Int := -1

def Board.INVALID_MOVE : Int := 0

def Board.LOSS : Int := -1

def Board.WIN : Int := 1

def Board.VALID_MOVE : Int := 2

/-- Read cell `(r, c)` of a raw grid; 0 (empty) outside the grid. -/
def cellD (s : List (List Int)) (r c : Nat) : Int := (s.getD r []).getD c 0

def Board.get (b : Board) (r c : Nat) : Int := cellD b.state r c

/-- Scan column `c` bottom-up for the lowest empty row, `-1` if the column is
full; models the `last_rows` loop of `Board.__init__`. -/
def lastRowAux (s : List (List Int)) (c : Nat) : Nat → Int
  | 0 => -1
  | r + 1 => if cellD s r c = 0 then (r : Int) else lastRowAux s c r

/-- Embedding of `Board.__init__` with a preloaded state. -/
def Board.ofState (s : List (List Int)) : Board :=
  { state := s, last_rows := (List.range 7).map fun c => lastRowAux s c 7 }

/-- Embedding of `Board.__init__` with no preloaded state: the empty board. -/
def Board.init : Board :=
  { state := List.replicate 7 (List.replicate 7 0), last_rows := List.replicate 7 6 }

/-- Embedding of `Board.copy` (board.py): the copy recomputes `last_rows`
from the copied grid. -/
def Board.copy (b : Board) : Board := Board.ofState b.state

/-- Embedding of `Board.check_validity` (board.py). -/
def Board.check_validity (b : Board) (row col : Int) : Bool :=
  if ¬(0 ≤ row ∧ row < Board.height) then false
  else if ¬(0 ≤ col ∧ col < Board.width) then false
  else if b.get row.toNat col.toNat ≠ Board.NOT_SET then false
  else if row = Board.height - 1 then true
  else b.get (row.toNat + 1) col.toNat ≠ Board.NOT_SET

/-- Column `col` of the grid as a list, top row first (`state[:, col].T`). -/
def Board.colList (b : Board) (col : Nat) : List Int := b.state.map fun r => r.getD col 0

/-- Embedding of `Board.think` (board.py). -/
def Board.think (b : Board) (row col player : Int) : Int :=
  if ¬ b.check_validity row col then Board.INVALID_MOVE
  else
    let row_arr := b.state.getD row.toNat []
    let col_arr := b.colList col.toNat
    let row_count := _count row_arr col.toNat player
    let col_count := _count col_arr row.toNat player
    if Board.win_count ≤ row_count ∨ Board.win_count ≤ col_count then Board.WIN
    else Board.VALID_MOVE

/-- Embedding of `Board.valid_moves` (board.py): the columns whose
`last_rows` entry lies in `[0, height)`. -/
def Board.valid_moves (b : Board) : List Int :=
  b.last_rows.enum.filterMap fun p =>
    if 0 ≤ p.2 ∧ p.2 < Board.height then some ((p.1 : Int)) else none

/-- Embedding of `Board.play` (board.py); `.error ()` models the exception
raised for an invalid player id, `.ok (status, b')` the returned status
together with the (possibly unchanged) board. -/
def Board.play (b : Board) (col player : Int) : Except Unit (Int × Board) :=
  if ¬(0 ≤ col ∧ col < Board.width) then .ok (Board.INVALID_MOVE, b)
  else
    let row := b.last_rows.getD col.toNat (-1)
    if player ≠ Board.PLAYER_1 ∧ player ≠ Board.PLAYER_2 then .error ()
    else
      let status := b.think row col player
      if status = Board.INVALID_MOVE then .ok (status, b)
      else
        .ok (status,
          { state := b.state.set row.toNat ((b.state.getD row.toNat []).set col.toNat player),
            last_rows := b.last_rows.set col.toNat (row - 1) })

/-- Data fields of a search-tree node (tree.py `Node`), parent pointer and
children aside; `none` models Python `None`. -/
structure NodeData where
  score : Int
  total : Int
  move : Option Int
  status : Option Int
  winner : Bool
  loser : Bool
  player : Int
  state : List (List Int)
deriving DecidableEq

/-- Search-tree node (tree.py `Node`): the data fields plus the
insertion-ordered children list; the Python parent pointer is implicit in
the tree structure, and marks placed on a parent are returned to the caller
holding the parent. -/
inductive Node where
  | mk (data : NodeData) (children : List Node)

def Node.data : Node → NodeData
  | .mk d _ => d

def Node.children : Node → List Node
  | .mk _ c => c

def Node.score (n : Node) : Int := n.data.score

def Node.total (n : Node) : Int := n.data.total

def Node.move (n : Node) : Option Int := n.data.move

def Node.status (n : Node) : Option Int := n.data.status

def Node.winner (n : Node) : Bool := n.data.winner

def Node.loser (n : Node) : Bool := n.data.loser

def Node.player (n : Node) : Int := n.data.player

def Node.state (n : Node) : List (List Int) := n.data.state

/-- Result of `ComputerController.play_node` (controller.py): the board
after the move, the new child node, and whether the code marks the parent
node (when one is supplied) as winner / loser. -/
structure PlayNodeResult where
  board : Board
  node : Node
  markWinner : Bool
  markLoser : Bool

/-- Embedding of `ComputerController.play_node` (controller.py): play the
move, count the remaining valid moves, build the child node and, on a WIN
status, set the winner/loser flags and the `±V` score on the child and
request the corresponding mark on the parent. -/
def play_node (me : Int) (b : Board) (move player : Int) : Except Unit PlayNodeResult :=
  match b.play move player with
  | .error e => .error e
  | .ok (status, b') =>
    let v : Int := (b'.valid_moves).length
    let base : NodeData := { score := 0, total := 1, move := some move, status := some status,
                             winner := false, loser := false, player := player, state := b'.state }
    if status = Board.WIN then
      if player = me then
        .ok ⟨b', .mk { base with winner := true, score := Board.WIN * v, total := v } [], true, false⟩
      else
        .ok ⟨b', .mk { base with loser := true, score := Board.LOSS * v, total := v } [], false, true⟩
    else .ok ⟨b', .mk base [], false, false⟩

/-- Models the loop of `create_tree.recurse` (controller.py): for each valid
move of `b`, when `depth < maxDepth`, build the subtree for that move on a
copy of the board; returns the children created for the current node and
the accumulated winner/loser marks placed on it. `rec` is the recursive
call `(move, board copy, depth + 1, flipped player)`. -/
def create_children (rec : Int → Board → Int → Int → Except Unit (Node × Bool × Bool))
    (b : Board) (depth maxDepth player : Int) : Except Unit (List Node × Bool × Bool) :=
  b.valid_moves.foldlM (fun acc m =>
    if depth < maxDepth then do
      let (c, mw, ml) ← rec m b.copy (depth + 1) (player * -1)
      pure (acc.1 ++ [c], acc.2.1 || mw, acc.2.2 || ml)
    else pure acc) ([], false, false)

/-- Embedding of `create_tree.recurse` (controller.py) for a non-`None`
move: play the move via `play_node`; a WIN child is a leaf, any other child
is expanded over the valid moves of the updated board. `fuel` only bounds
the recursion depth, which the source bounds by `maxDepth`. -/
def create_subtree (me maxDepth : Int) : Nat → Int → Board → Int → Int → Except Unit (Node × Bool × Bool)
  | 0, _, _, _, _ => .error ()
  | fuel + 1, move, b, depth, player => do
    let r ← play_node me b move player
    if (r.node.status.getD 0).natAbs = 1 then pure (r.node, r.markWinner, r.markLoser)
    else do
      let (kids, w, l) ← create_children (create_subtree me maxDepth fuel) r.board depth maxDepth player
      pure (Node.mk { r.node.data with winner := r.node.winner || w, loser := r.node.loser || l }
              (r.node.children ++ kids), r.markWinner, r.markLoser)

/-- Embedding of `ComputerController.create_tree` (controller.py): a root
node `Node(0, 0, None, b.state, player * -1, None)` expanded by
`recurse(None, b, 0, player * -1, node)`. -/
def create_tree (b : Board) (player maxDepth : Int) : Except Unit Node := do
  let rootData : NodeData := { score := 0, total := 0, move := none, status := none,
                               winner := false, loser := false, player := player * -1, state := b.state }
  let (kids, w, l) ← create_children (create_subtree player maxDepth (maxDepth.toNat + 1))
                        b 0 maxDepth (player * -1)
  pure (Node.mk { rootData with winner := w, loser := l } kids)

/-- Models the winner/loser accumulation loop of `ComputerController._tree`:
the pair `(all_winners, all_losers)` threaded over the children. -/
def flagsLoop : List Node → Bool × Bool → Bool × Bool
  | [], acc => acc
  | c :: cs, (aw, al) =>
    if c.winner then flagsLoop cs (aw, false)
    else if c.loser then flagsLoop cs (false, al)
    else flagsLoop cs (false, false)

/-- Models the tail of the `recurse` body of `ComputerController._tree`: the
winner/loser propagation block (skipped when the node is already flagged)
followed by the child-sum scoring block (skipped when it has no children). -/
def finishNode (n : Node) : Node :=
  let n1 :=
    if n.winner || n.loser then n
    else
      let fl := flagsLoop n.children (true, true)
      Node.mk { n.data with winner := fl.1, loser := fl.2 } n.children
  if n1.children.isEmpty then n1
  else
    Node.mk { n1.data with score := (n1.children.map Node.score).sum,
                           total := (n1.children.map Node.total).sum } n1.children

/-- Models the children-processing part of the `recurse` body of
`ComputerController._tree`: when the node has children (pre-computed tree)
walk them, rebuilding each child's board from its stored state; otherwise
generate children from the board's valid moves via `play_node`. `rec` is
the recursive call `(flipped player, board, depth + 1, node)`; a missing
child status makes `abs(child.status)` raise, modelled by `.error ()`. -/
def processChildren (rec : Int → Board → Int → Node → Except Unit Node)
    (me maxDepth player : Int) (rboard : Board) (depth : Int) (node : Node) :
    Except Unit Node :=
  if node.children.isEmpty then
    rboard.valid_moves.foldlM (fun nd move => do
      let r ← play_node me rboard.copy move player
      let child ←
        if (r.node.status.getD 0).natAbs = 1 then pure r.node
        else if depth < maxDepth then rec (player * -1) r.board (depth + 1) r.node
        else pure r.node
      pure (Node.mk { nd.data with winner := nd.winner || r.markWinner,
                                   loser := nd.loser || r.markLoser }
              (nd.children ++ [child]))) node
  else do
    let cs ← node.children.mapM fun child => do
      let newBoard := Board.ofState child.state
      match child.status with
      | none => .error ()
      | some st =>
        if st.natAbs = 1 then pure child
        else if depth < maxDepth then rec (player * -1) newBoard (depth + 1) child
        else pure child
    pure (Node.mk node.data cs)

/-- Embedding of the `recurse` body of `ComputerController._tree`: process
the children, then run flag propagation and child-sum scoring on the node.
`fuel` only bounds the recursion depth, which the source bounds by
`maxDepth` (it descends only while `depth < maxDepth`). -/
def recurse (me maxDepth : Int) : Nat → Int → Board → Int → Node → Except Unit Node
  | 0, _, _, _, node => .ok node
  | fuel + 1, player, rboard, depth, node => do
    let n ← processChildren (recurse me maxDepth fuel) me maxDepth player rboard depth node
    pure (finishNode n)

/-- Embedding of `ComputerController._tree` (the score-tree pass): create
the tree from a board copy when no pre-computed tree is supplied, then
score it with `recurse(me, board, 1, root)`. -/
def _tree (me maxDepth : Int) (b : Board) (root : Option Node) : Except Unit Node := do
  let root ← match root with
    | none => create_tree b.copy me maxDepth
    | some r => pure r
  recurse me maxDepth (maxDepth.toNat + 1) me b 1 root

/-- Embedding of `common.calculate_score`: `score / total`, 0 when
`total = 0`; the Python float division is modelled by exact rationals. -/
def calculate_score (score total : Int) : ℚ :=
  if total = 0 then 0 else (score : ℚ) / (total : ℚ)

/-- Sort key used by `ComputerController.play` over the root children. -/
def sortKey (n : Node) : ℚ := calculate_score n.score n.total

/-- Stable descending insertion used to model Python's stable
`sorted(..., reverse=True)`: an element moves past exactly the elements of
strictly greater key, so insertion order is kept among equal keys. -/
def insertDesc (x : Node) : List Node → List Node
  | [] => [x]
  | y :: ys => if sortKey x < sortKey y then y :: insertDesc x ys else x :: y :: ys

/-- Stable descending sort by `sortKey`, modelling
`sorted(root.children, key=..., reverse=True)` in `ComputerController.play`. -/
def sortedDesc (l : List Node) : List Node := l.foldr insertDesc []

/-- Embedding of the move-selection tail of `ComputerController.play`
(controller.py): sort the root children by score descending and return the
move of the first; `none` when the root has no children (Python raises). -/
def play_select (root : Node) : Option (Option Int) :=
  ((sortedDesc root.children).head?).map Node.move

/-- Embedding of `parallel.Task`; `moves` entries are the node `move`
fields placed in the path (always `some` for nodes below the root). -/
structure Task where
  worker : Option Int
  state : List (List Int)
  moves : List (Option Int)
  player : Int
deriving DecidableEq

/-- Lookup of `Node._children_map[m]` (tree.py): the children map is keyed
by move and a later `add` with the same move overwrites, so it holds the
last child with that move. -/
def childByMove (n : Node) (m : Option Int) : Option Node :=
  (n.children.filter fun c => c.move = m).getLast?

/-- Embedding of `Node.get_move` (tree.py): follow `_children_map` hop by
hop; `none` models the KeyError on a missing hop. -/
def get_move : List (Option Int) → Node → Option Node
  | [], n => some n
  | m :: ms, n => (childByMove n m).bind (get_move ms)

/-- The list the `recurse` of `_create_tasks` appends for its own `move`
argument: nothing for `None`, the single hop otherwise. -/
def moveApp : Option Int → List (Option Int)
  | none => []
  | some m => [some m]

/-- Embedding of `MasterController._create_tasks.recurse` (parallel.py).
`fuel` only bounds the recursion depth, which the source bounds by
`maxDepth` (it descends only while `depth < maxDepth`): the
`existing_moves.append(move)` guarded by `move is not None` is the
`moveApp` append. -/
def tasksRecurse (maxDepth : Int) : Nat → List (Option Int) → Option Int → Int → Node → List Task
  | 0, _, _, _, _ => []
  | fuel + 1, existing, move, depth, node =>
    if node.winner || node.loser then []
    else
      let ex := existing ++ moveApp move
      let result := node.children.foldl (fun acc child =>
        if depth < maxDepth then acc ++ tasksRecurse maxDepth fuel ex child.move (depth + 1) child
        else acc ++ [⟨none, child.state, ex ++ [child.move], child.player⟩]) []
      if node.children.isEmpty then [⟨none, node.state, ex, node.player⟩]
      else result

/-- Embedding of `MasterController._create_tasks` (parallel.py):
`recurse([], None, 1, root)`. -/
def _create_tasks (root : Node) (maxDepth : Int) : List Task :=
  tasksRecurse maxDepth (maxDepth.toNat + 1) [] none 1 root

/-- Embedding of the `Game` state (game.py); the two controllers are
modelled as pure move sources `player ↦ column`. -/
structure Game where
  board : Board
  move : Int
  won : Int
  ctl1 : Int → Int
  ctl2 : Int → Int

/-- Embedding of `Game.step` (game.py): pick controller and player from the
move counter; if the game is decided return WIN/LOSS advancing the counter;
otherwise play the controller's move, not advancing the counter on an
INVALID status. -/
def Game.step (g : Game) : Except Unit (Int × Game) :=
  let pc := if g.move % 2 = 0 then (g.ctl1, Board.PLAYER_1) else (g.ctl2, Board.PLAYER_2)
  if g.won ≠ 0 then
    let g' := { g with move := g.move + 1 }
    if pc.2 = g.won then .ok (Board.WIN, g') else .ok (Board.LOSS, g')
  else
    match g.board.play (pc.1 pc.2) pc.2 with
    | .error e => .error e
    | .ok (status, b') =>
      if status = Board.INVALID_MOVE then .ok (status, { g with board := b' })
      else if status = Board.WIN then
        .ok (status, { g with board := b', won := pc.2, move := g.move + 1 })
      else .ok (status, { g with board := b', move := g.move + 1 })

/-- Boards reachable from the empty board by plays that performed a move. -/
inductive Reachable : Board → Prop where
  | init : Reachable Board.init
  | play (b : Board) (c p st : Int) (b' : Board) : Reachable b →
      Board.play b c p = .ok (st, b') → st ≠ Board.INVALID_MOVE → Reachable b'

/-- Structural well-formedness of a board: a 7×7 grid and 7 column counters. -/
def Shape (b : Board) : Prop :=
  b.state.length = 7 ∧ (∀ row ∈ b.state, row.length = 7) ∧ b.last_rows.length = 7

/-- The gravity invariant of the specification: in every column either the
column is full and its counter is −1, or the counter is a row of the grid,
everything strictly below it is occupied and everything at it or above is
empty. -/
def Gravity (b : Board) : Prop :=
  ∀ c : Nat, c < 7 →
    (b.last_rows.getD c (-1) = -1 ∧ ∀ r : Nat, r < 7 → b.get r c ≠ 0) ∨
    (0 ≤ b.last_rows.getD c (-1) ∧ b.last_rows.getD c (-1) < 7 ∧
      (∀ r : Nat, r < 7 → b.last_rows.getD c (-1) < (r : Int) → b.get r c ≠ 0) ∧
      (∀ r : Nat, r < 7 → (r : Int) ≤ b.last_rows.getD c (-1) → b.get r c = 0))

/-- A contiguous run of at least `win_count` cells equal to `p` that
contains position `i` of the line. -/
def hasRunThrough (line : List Int) (i : Nat) (p : Int) : Prop :=
  ∃ l u : Nat, l ≤ i ∧ i ≤ u ∧ u < line.length ∧ Board.win_count ≤ u + 1 - l ∧
    ∀ j : Nat, l ≤ j → j ≤ u → line.getD j 0 = p

/-! Concrete boards used to instantiate theorems. -/

/-- A 7×7 grid with no four-in-a-row along any row or column, whose only
empty cell is the top of column 0. -/
def drawState : List (List Int) :=
  [[0, 1, -1, -1, 1, 1, -1],
   [1, 1, -1, -1, 1, 1, -1],
   [-1, -1, 1, 1, -1, -1, 1],
   [-1, -1, 1, 1, -1, -1, 1],
   [1, 1, -1, -1, 1, 1, -1],
   [1, 1, -1, -1, 1, 1, -1],
   [-1, -1, 1, 1, -1, -1, 1]]

def drawBoard : Board := Board.ofState drawState

/-- Like `drawState` but with the top of column 6 also empty. -/
def nearFullState : List (List Int) :=
  [[0, 1, -1, -1, 1, 1, 0],
   [1, 1, -1, -1, 1, 1, -1],
   [-1, -1, 1, 1, -1, -1, 1],
   [-1, -1, 1, 1, -1, -1, 1],
   [1, 1, -1, -1, 1, 1, -1],
   [1, 1, -1, -1, 1, 1, -1],
   [-1, -1, 1, 1, -1, -1, 1]]

def nearFullBoard : Board := Board.ofState nearFullState

/-- Three `+1` tokens stacked at the bottom of column 0. -/
def threeStackState : List (List Int) :=
  [[0, 0, 0, 0, 0, 0, 0],
   [0, 0, 0, 0, 0, 0, 0],
   [0, 0, 0, 0, 0, 0, 0],
   [0, 0, 0, 0, 0, 0, 0],
   [1, 0, 0, 0, 0, 0, 0],
   [1, 0, 0, 0, 0, 0, 0],
   [1, 0, 0, 0, 0, 0, 0]]

def threeStackBoard : Board := Board.ofState threeStackState

/-- The `play_node` outcome of the winning drop on `threeStackBoard`. -/
def threeStackPlayed : PlayNodeResult :=
  match play_node 1 threeStackBoard 0 1 with
  | .ok r => r
  | .error _ => ⟨Board.init, Node.mk ⟨0, 0, none, none, false, false, 0, []⟩ [], false, false⟩

/-- The full board obtained by dropping `+1` into column 0 of `drawBoard`. -/
def fullDrawBoard : Board :=
  match drawBoard.play 0 1 with
  | .ok (_, b) => b
  | .error _ => drawBoard

/-- An unscored, unflagged leaf node carrying the full drawn board. -/
def drawLeafNode : Node :=
  Node.mk
    { score := 0, total := 1, move := some 0, status := some 2,
      winner := false, loser := false, player := 1, state := fullDrawBoard.state } []

/-- The result of the scoring recursion on `drawLeafNode`. -/
def drawLeafScored : Node :=
  match recurse 1 2 1 (-1) fullDrawBoard 2 drawLeafNode with
  | .ok r => r
  | .error _ => drawLeafNode

/-! Basic lemmas about the embedding. -/

@[simp]
theorem Node.data_mk (d : NodeData) (cs : List Node) : (Node.mk d cs).data = d := rfl

@[simp]
theorem Node.children_mk (d : NodeData) (cs : List Node) : (Node.mk d cs).children = cs := rfl

theorem exceptBind_ok {α β : Type} {x : Except Unit α} {f : α → Except Unit β} {r : β}
    (h : (x >>= f) = .ok r) : ∃ a, x = .ok a ∧ f a = .ok r := by
  cases x with
  | error e => simp [Bind.bind, Except.bind] at h
  | ok a => exact ⟨a, rfl, by simpa [Bind.bind, Except.bind] using h⟩

theorem flagsLoop_spec (cs : List Node) (aw al : Bool) :
    flagsLoop cs (aw, al) =
      (aw && cs.all (fun c => c.winner), al && cs.all (fun c => !c.winner && c.loser)) := by
  induction cs generalizing aw al with
  | nil => simp [flagsLoop]
  | cons c cs ih =>
    by_cases hw : c.winner
    · simp [flagsLoop, hw, ih, Bool.and_assoc]
    · by_cases hl : c.loser
      · simp [flagsLoop, hw, hl, ih, Bool.and_assoc]
      · simp [flagsLoop, hw, hl, ih]

theorem finishNode_children (n : Node) : (finishNode n).children = n.children := by
  unfold finishNode
  by_cases h : (n.winner || n.loser) = true <;> by_cases h2 : n.children.isEmpty <;>
    simp_all

theorem recurse_ok {me maxDepth : Int} {fuel : Nat} {player : Int} {b : Board} {depth : Int}
    {node r : Node}
    (h : recurse me maxDepth (fuel + 1) player b depth node = .ok r) :
    ∃ n, processChildren (recurse me maxDepth fuel) me maxDepth player b depth node = .ok n ∧
      r = finishNode n := by
  unfold recurse at h
  obtain ⟨n, hn, hr⟩ := exceptBind_ok h
  exact ⟨n, hn, by cases hr; rfl⟩

/-! ### C10 -/

/-- C10: a node reached by the scoring recursion that has no pre-computed
children, whose board has no legal moves, and that is not already flagged,
ends the pass with both `winner` and `loser` set. -/
theorem C10_draw_leaf_both_flags
    (me maxDepth : Int) (fuel : Nat) (player : Int) (b : Board) (depth : Int)
    (node r : Node)
    (hch : node.children = []) (hvm : b.valid_moves = [])
    (hw : node.winner = false) (hl : node.loser = false)
    (hrec : recurse me maxDepth (fuel + 1) player b depth node = .ok r) :
    r.winner = true ∧ r.loser = true := by
  obtain ⟨n, hn, hr⟩ := recurse_ok hrec
  have hnode : n = node := by
    unfold processChildren at hn
    rw [hch, hvm] at hn
    simp [List.foldlM, pure, Except.pure] at hn
    exact hn.symm
  rw [hr, hnode]
  have hw' : node.data.winner = false := hw
  have hl' : node.data.loser = false := hl
  simp [finishNode, Node.winner, Node.loser, hw', hl', hch, flagsLoop]

/-- Witness for C10: the engine run on the full drawn board. -/
theorem C10_draw_leaf_both_flags_witness :
    drawLeafNode.children = [] ∧ fullDrawBoard.valid_moves = [] ∧
    drawLeafScored.winner = true ∧ drawLeafScored.loser = true := by
  refine ⟨rfl, by decide, ?_⟩
  have := C10_draw_leaf_both_flags 1 2 1 (-1) fullDrawBoard 2 drawLeafNode drawLeafScored
    rfl (by decide) rfl rfl rfl
  exact this

/-! ### C5 -/

theorem finishNode_sums (n : Node) (h : n.children ≠ []) :
    (finishNode n).score = ((finishNode n).children.map Node.score).sum ∧
    (finishNode n).total = ((finishNode n).children.map Node.total).sum := by
  obtain ⟨d, cs⟩ := n
  have hne : cs.isEmpty = false := by
    cases hc : cs with
    | nil => exact absurd (by rw [hc]; rfl) h
    | cons a l => rfl
  by_cases hw : (d.winner || d.loser) = true <;>
    simp [finishNode, hw, hne, Node.score, Node.total, Node.children, Node.winner, Node.loser]

/-- C5: every node processed by the scoring recursion that ends up with at
least one child carries the raw sum of its children's `score` fields and
the raw sum of their `total` fields. -/
theorem C5_internal_sums
    (me maxDepth : Int) (fuel : Nat) (player : Int) (b : Board) (depth : Int)
    (node r : Node)
    (hrec : recurse me maxDepth (fuel + 1) player b depth node = .ok r)
    (hch : r.children ≠ []) :
    r.score = (r.children.map Node.score).sum ∧
    r.total = (r.children.map Node.total).sum := by
  obtain ⟨n, hn, hr⟩ := recurse_ok hrec
  have h1 : n.children ≠ [] := by
    rw [hr, finishNode_children] at hch
    exact hch
  rw [hr]
  exact finishNode_sums n h1

/-- An unscored, unflagged root node for `nearFullBoard`. -/
def nearFullRoot : Node :=
  Node.mk
    { score := 0, total := 0, move := none, status := none,
      winner := false, loser := false, player := -1, state := nearFullBoard.state } []

/-- The result of the scoring recursion on `nearFullRoot` at depth 1. -/
def nearFullScored : Node :=
  match recurse 1 1 1 1 nearFullBoard 1 nearFullRoot with
  | .ok r => r
  | .error _ => nearFullRoot

/-- Witness for C5: the engine run on the near-full board with two moves. -/
theorem C5_internal_sums_witness :
    nearFullScored.children.length = 2 ∧
    nearFullScored.score = (nearFullScored.children.map Node.score).sum ∧
    nearFullScored.total = (nearFullScored.children.map Node.total).sum := by
  have hlen : nearFullScored.children.length = 2 := rfl
  refine ⟨hlen, ?_⟩
  refine C5_internal_sums 1 1 0 1 nearFullBoard 1 nearFullRoot nearFullScored rfl ?_
  intro h
  rw [h] at hlen
  exact absurd hlen (by decide)

/-! ### C3 -/

/-- C3: when `play_node` records a WIN, the mover being `me` makes the new
node a winner (with the parent marked winner) scored `+V` over `V`, and the
mover being the opponent makes it a loser (parent marked loser) scored
`-V` over `V`, where `V` counts the legal moves left after the move. -/
theorem C3_leaf_scoring
    (me : Int) (b : Board) (move player : Int) (r : PlayNodeResult)
    (hme : me = 1 ∨ me = -1)
    (h : play_node me b move player = .ok r)
    (hst : r.node.status = some Board.WIN) :
    (player = me →
        r.node.winner = true ∧ r.markWinner = true ∧
        r.node.score = ((r.board.valid_moves).length : Int) ∧
        r.node.total = ((r.board.valid_moves).length : Int)) ∧
    (player = -me →
        r.node.loser = true ∧ r.markLoser = true ∧
        r.node.score = -((r.board.valid_moves).length : Int) ∧
        r.node.total = ((r.board.valid_moves).length : Int)) := by
  unfold play_node at h
  cases hp : b.play move player with
  | error e =>
    rw [hp] at h
    exact absurd h (by simp)
  | ok sb =>
    obtain ⟨status, b'⟩ := sb
    rw [hp] at h
    simp only [] at h
    by_cases hwin : status = Board.WIN
    · rw [if_pos hwin] at h
      by_cases hpm : player = me
      · rw [if_pos hpm] at h
        injection h with h1
        subst h1
        constructor
        · intro _
          refine ⟨rfl, rfl, ?_, ?_⟩ <;>
            simp [Node.score, Node.total, Board.WIN]
        · intro hneg
          exfalso
          rw [hneg] at hpm
          rcases hme with h1 | h1 <;> rw [h1] at hpm <;> exact absurd hpm (by decide)
      · rw [if_neg hpm] at h
        injection h with h1
        subst h1
        constructor
        · intro hpos
          exact absurd hpos hpm
        · intro _
          refine ⟨rfl, rfl, ?_, ?_⟩ <;>
            simp [Node.score, Node.total, Board.LOSS]
    · rw [if_neg hwin] at h
      injection h with h1
      subst h1
      exact absurd (by simpa [Node.status] using hst) hwin

/-- Witness for C3: the winning drop on `threeStackBoard`. -/
theorem C3_leaf_scoring_witness :
    threeStackPlayed.node.status = some Board.WIN ∧
    ((1 : Int) = 1 →
        threeStackPlayed.node.winner = true ∧ threeStackPlayed.markWinner = true ∧
        threeStackPlayed.node.score = ((threeStackPlayed.board.valid_moves).length : Int) ∧
        threeStackPlayed.node.total = ((threeStackPlayed.board.valid_moves).length : Int)) ∧
    ((1 : Int) = -1 →
        threeStackPlayed.node.loser = true ∧ threeStackPlayed.markLoser = true ∧
        threeStackPlayed.node.score = -((threeStackPlayed.board.valid_moves).length : Int) ∧
        threeStackPlayed.node.total = ((threeStackPlayed.board.valid_moves).length : Int)) := by
  refine ⟨by decide, ?_⟩
  exact C3_leaf_scoring 1 threeStackBoard 0 1 threeStackPlayed (Or.inl rfl) rfl (by decide)

/-! ### C9 -/

/-- C9: a `play` that returns INVALID leaves the board unchanged, and a
`Game.step` whose controller move comes back INVALID leaves the move
counter unchanged, so the same side moves again. -/
theorem C9_invalid_atomicity :
    (∀ (b : Board) (col p st : Int) (b' : Board),
        b.play col p = .ok (st, b') → st = Board.INVALID_MOVE → b' = b) ∧
    (∀ (g : Game) (st : Int) (g' : Game),
        g.won = 0 → g.step = .ok (st, g') → st = Board.INVALID_MOVE → g'.move = g.move) := by
  constructor
  · intro b col p st b' h hst
    simp only [Board.play] at h
    split at h
    · injection h with h1
      injection h1 with h2 h3
      exact h3.symm
    · split at h
      · exact absurd h (by simp)
      · split at h
        · injection h with h1
          injection h1 with h2 h3
          exact h3.symm
        · rename_i hinv
          injection h with h1
          injection h1 with h2 h3
          exact absurd (h2.trans hst) hinv
  · intro g st g' hwon h hst
    simp only [Game.step, hwon] at h
    rw [if_neg (fun hh : (0 : Int) ≠ 0 => hh rfl)] at h
    split at h
    · exact absurd h (by simp)
    · split at h
      · injection h with h1
        injection h1 with h2 h3
        rw [← h3]
      · rename_i hni
        split at h <;>
        · injection h with h1
          injection h1 with h2 h3
          exact absurd (h2.trans hst) hni

/-- A game about to receive an out-of-range column from its controller. -/
def stuckGame : Game :=
  { board := Board.init, move := 0, won := 0, ctl1 := fun _ => 7, ctl2 := fun _ => 0 }

/-- Witness for C9: `play(7, +1)` on the empty board is INVALID and leaves
the board as it was; the corresponding game step keeps `move = 0`. -/
theorem C9_invalid_atomicity_witness :
    (Board.init.play 7 1 = .ok (Board.INVALID_MOVE, Board.init) ∧ Board.init = Board.init) ∧
    (stuckGame.won = 0 ∧ stuckGame.move = stuckGame.move) := by
  refine ⟨⟨rfl, ?_⟩, rfl, ?_⟩
  · exact C9_invalid_atomicity.1 Board.init 7 1 Board.INVALID_MOVE Board.init rfl rfl
  · exact C9_invalid_atomicity.2 stuckGame Board.INVALID_MOVE stuckGame rfl rfl rfl

/-! ### C2 counterexample -/

/-- Counterexample to C2 as stated: on the empty board with the in-range
column 0 and the invalid player id 2, `play` raises an exception instead of
returning the INVALID status. -/
theorem C2_invalid_rejection_counterexample :
    Board.play Board.init 0 2 = .error () ∧
    ((2 : Int) ≠ 1 ∧ (2 : Int) ≠ -1) ∧ (0 : Int) ≤ 0 ∧ (0 : Int) < Board.width := by
  exact ⟨rfl, by decide, by decide, by decide⟩

/-! ### C4 -/

/-- Counterexample to C4 as stated: scoring the one-move draw board
processes a root that is not already flagged and whose children (after
processing) are all marked loser, yet the root does not receive the loser
flag, because its only child is simultaneously a winner. -/
theorem C4_flag_propagation_counterexample :
    ((create_tree drawBoard.copy 1 2).toOption.map fun r => (r.winner, r.loser)) =
        some (false, false) ∧
    ((_tree 1 2 drawBoard none).toOption.map fun r =>
        (r.children.isEmpty, r.children.all Node.loser, r.loser)) =
      some (false, true, false) := by
  exact ⟨rfl, rfl⟩

/-- C4 (amended): a node processed by the scoring recursion that ends with
at least one child and is not flagged winner or loser after its children
are processed is marked winner iff all its children are winners, and is
marked loser iff every child is a loser that is not also a winner. -/
theorem C4_flag_propagation
    (me maxDepth : Int) (fuel : Nat) (player : Int) (b : Board) (depth : Int)
    (node n r : Node)
    (hn : processChildren (recurse me maxDepth fuel) me maxDepth player b depth node = .ok n)
    (hrec : recurse me maxDepth (fuel + 1) player b depth node = .ok r)
    (hw : n.winner = false) (hl : n.loser = false) (hch : n.children ≠ []) :
    r.children = n.children ∧
    (r.winner = true ↔ ∀ c ∈ n.children, c.winner = true) ∧
    (r.loser = true ↔ ∀ c ∈ n.children, c.loser = true ∧ c.winner = false) := by
  obtain ⟨n', hn', hr⟩ := recurse_ok hrec
  rw [hn] at hn'
  injection hn' with hnn
  subst hnn
  rw [hr]
  obtain ⟨d, cs⟩ := n
  have hw' : d.winner = false := hw
  have hl' : d.loser = false := hl
  have hne : cs.isEmpty = false := by
    cases hc : cs with
    | nil => exact absurd (by rw [hc]; rfl) hch
    | cons a l => rfl
  refine ⟨?_, ?_, ?_⟩
  · simp [finishNode, hw', hl', hne, Node.winner, Node.loser, Node.children]
  · simp [finishNode, hw', hl', hne, Node.winner, Node.loser, Node.children,
      flagsLoop_spec, List.all_eq_true]
  · simp [finishNode, hw', hl', hne, Node.winner, Node.loser, Node.children,
      flagsLoop_spec, List.all_eq_true, Bool.and_eq_true, Bool.not_eq_true']
    constructor
    · intro hall c hc
      exact ⟨(hall c hc).2, (hall c hc).1⟩
    · intro hall c hc
      exact ⟨(hall c hc).2, (hall c hc).1⟩

/-- The node produced by processing the children of `nearFullRoot`. -/
def nearFullProcessed : Node :=
  match processChildren (recurse 1 1 0) 1 1 1 nearFullBoard 1 nearFullRoot with
  | .ok nn => nn
  | .error _ => nearFullRoot

/-- Witness for the amended C4 on the near-full board with two moves. -/
theorem C4_flag_propagation_witness :
    nearFullProcessed.winner = false ∧ nearFullProcessed.loser = false ∧
    nearFullProcessed.children.length = 2 ∧
    (nearFullScored.children = nearFullProcessed.children ∧
      (nearFullScored.winner = true ↔ ∀ c ∈ nearFullProcessed.children, c.winner = true) ∧
      (nearFullScored.loser = true ↔
        ∀ c ∈ nearFullProcessed.children, c.loser = true ∧ c.winner = false)) := by
  have hlen : nearFullProcessed.children.length = 2 := rfl
  refine ⟨rfl, rfl, hlen, ?_⟩
  refine C4_flag_propagation 1 1 0 1 nearFullBoard 1 nearFullRoot nearFullProcessed
    nearFullScored rfl rfl rfl rfl ?_
  intro h
  rw [h] at hlen
  exact absurd hlen (by decide)

/-! ### C6 -/

theorem sortedDesc_head (l : List Node) (hne : l ≠ []) :
    ∃ l1 c l2, l = l1 ++ c :: l2 ∧ (sortedDesc l).head? = some c ∧
      (∀ d ∈ l, sortKey d ≤ sortKey c) ∧ (∀ d ∈ l1, sortKey d < sortKey c) := by
  induction l with
  | nil => exact absurd rfl hne
  | cons x xs ih =>
    by_cases hxs : xs = []
    · subst hxs
      refine ⟨[], x, [], rfl, rfl, ?_, ?_⟩
      · intro d hd
        simp at hd
        rw [hd]
      · intro d hd
        simp at hd
    · obtain ⟨l1, c, l2, hsplit, hhead, hall, hfirst⟩ := ih hxs
      obtain ⟨rest, hrest⟩ : ∃ rest, sortedDesc xs = c :: rest := by
        cases hs : sortedDesc xs with
        | nil => rw [hs] at hhead; exact absurd hhead (by simp)
        | cons a r =>
          rw [hs] at hhead
          simp at hhead
          exact ⟨r, by rw [hhead]⟩
      by_cases hcmp : sortKey x < sortKey c
      · refine ⟨x :: l1, c, l2, by rw [hsplit, List.cons_append], ?_, ?_, ?_⟩
        · show (insertDesc x (sortedDesc xs)).head? = some c
          rw [hrest]
          simp [insertDesc, hcmp]
        · intro d hd
          rcases List.mem_cons.mp hd with h | h
          · rw [h]; exact le_of_lt hcmp
          · exact hall d h
        · intro d hd
          rcases List.mem_cons.mp hd with h | h
          · rw [h]; exact hcmp
          · exact hfirst d h
      · refine ⟨[], x, xs, rfl, ?_, ?_, ?_⟩
        · show (insertDesc x (sortedDesc xs)).head? = some x
          rw [hrest]
          simp [insertDesc, hcmp]
        · intro d hd
          rcases List.mem_cons.mp hd with h | h
          · rw [h]
          · exact le_trans (hall d h) (not_lt.mp hcmp)
        · intro d hd
          simp at hd

/-- C6: `play` returns the move of the root child whose
`calculate_score(score, total)` ranking is maximal, and among equally
ranked children the one earliest in insertion order. -/
theorem C6_move_selection (root : Node) (hne : root.children ≠ []) :
    ∃ l1 c l2, root.children = l1 ++ c :: l2 ∧ play_select root = some c.move ∧
      (∀ d ∈ root.children, calculate_score d.score d.total ≤ calculate_score c.score c.total) ∧
      (∀ d ∈ l1, calculate_score d.score d.total < calculate_score c.score c.total) := by
  obtain ⟨l1, c, l2, hsplit, hhead, hall, hfirst⟩ := sortedDesc_head root.children hne
  exact ⟨l1, c, l2, hsplit, by simp [play_select, hhead], hall, hfirst⟩

/-- A leaf child carrying a score, a total and a move. -/
def selChild (sc tot mv : Int) : Node :=
  Node.mk
    { score := sc, total := tot, move := some mv, status := some 2,
      winner := false, loser := false, player := 1, state := [] } []

/-- A scored root whose best-ranked children are the second and third. -/
def selTestRoot : Node :=
  Node.mk
    { score := 0, total := 0, move := none, status := none,
      winner := false, loser := false, player := -1, state := [] }
    [selChild 1 2 0, selChild 3 4 1, selChild 3 4 2, selChild (-1) 1 3]

/-- Witness for C6: the earliest maximal child of `selTestRoot` is chosen. -/
theorem C6_move_selection_witness :
    selTestRoot.children.length = 4 ∧
    (∃ l1 c l2, selTestRoot.children = l1 ++ c :: l2 ∧ play_select selTestRoot = some c.move ∧
      (∀ d ∈ selTestRoot.children,
          calculate_score d.score d.total ≤ calculate_score c.score c.total) ∧
      (∀ d ∈ l1, calculate_score d.score d.total < calculate_score c.score c.total)) := by
  have hlen : selTestRoot.children.length = 4 := rfl
  refine ⟨hlen, C6_move_selection selTestRoot ?_⟩
  intro h
  rw [h] at hlen
  exact absurd hlen (by decide)

/-! ### List access lemmas -/

theorem getD_set_self {α : Type} (a d : α) :
    ∀ (l : List α) (i : Nat), i < l.length → (l.set i a).getD i d = a
  | _ :: _, 0, _ => rfl
  | x :: xs, i + 1, h => getD_set_self a d xs i (by simpa using h)

theorem getD_set_ne {α : Type} (a d : α) :
    ∀ (l : List α) (i j : Nat), i ≠ j → (l.set i a).getD j d = l.getD j d
  | [], _, _, _ => rfl
  | _ :: _, 0, 0, h => absurd rfl h
  | _ :: _, 0, _ + 1, _ => rfl
  | _ :: _, _ + 1, 0, _ => rfl
  | _ :: xs, i + 1, j + 1, h => getD_set_ne a d xs i j (fun hh => h (by rw [hh]))

theorem mem_of_mem_set {α : Type} (a x : α) :
    ∀ (l : List α) (i : Nat), x ∈ l.set i a → x = a ∨ x ∈ l
  | [], _, h => Or.inr h
  | _ :: _, 0, h => by
    rcases List.mem_cons.mp h with h | h
    · exact Or.inl h
    · exact Or.inr (List.mem_cons_of_mem _ h)
  | y :: xs, i + 1, h => by
    rcases List.mem_cons.mp h with h | h
    · exact Or.inr (h ▸ List.mem_cons_self y xs)
    · rcases mem_of_mem_set a x xs i h with h | h
      · exact Or.inl h
      · exact Or.inr (List.mem_cons_of_mem _ h)

theorem getD_mem_of_lt {α : Type} (d : α) :
    ∀ (l : List α) (i : Nat), i < l.length → l.getD i d ∈ l
  | x :: xs, 0, _ => List.mem_cons_self x xs
  | x :: xs, i + 1, h =>
    List.mem_cons_of_mem x (getD_mem_of_lt d xs i (by simpa using h))

/-- The grid written by a performed `play`, with the placed cell at
`(rn, cn)`, read back cell by cell. -/
theorem cellD_write (s : List (List Int)) (rn cn : Nat) (p : Int) (r c : Nat)
    (h1 : rn < s.length) (h2 : cn < (s.getD rn []).length) :
    cellD (s.set rn ((s.getD rn []).set cn p)) r c =
      if r = rn ∧ c = cn then p else cellD s r c := by
  by_cases hr : r = rn
  · subst hr
    by_cases hc : c = cn
    · subst hc
      have hcond : r = r ∧ c = c := ⟨rfl, rfl⟩
      rw [if_pos hcond]
      unfold cellD
      rw [getD_set_self _ _ _ _ h1]
      exact getD_set_self _ _ _ _ h2
    · have hcond : ¬(r = r ∧ c = cn) := fun hh => hc hh.2
      rw [if_neg hcond]
      unfold cellD
      rw [getD_set_self _ _ _ _ h1]
      exact getD_set_ne _ _ _ _ _ (fun hh => hc hh.symm)
  · have hcond : ¬(r = rn ∧ c = cn) := fun hh => hr hh.1
    rw [if_neg hcond]
    unfold cellD
    rw [getD_set_ne _ _ _ _ _ (fun hh => hr hh.symm)]

/-! ### Inversion lemmas for `Board.play` -/

theorem play_invalid_unchanged {b : Board} {col p st : Int} {b' : Board}
    (h : b.play col p = .ok (st, b')) (hst : st = Board.INVALID_MOVE) : b' = b := by
  simp only [Board.play] at h
  split at h
  · injection h with h1
    injection h1 with h2 h3
    exact h3.symm
  · split at h
    · exact absurd h (by simp)
    · split at h
      · injection h with h1
        injection h1 with h2 h3
        exact h3.symm
      · rename_i hinv
        injection h with h1
        injection h1 with h2 h3
        exact absurd (h2.trans hst) hinv

/-- The board written by a performed drop at `(row, col)`. -/
def writeBoard (b : Board) (row col p : Int) : Board :=
  { state := b.state.set row.toNat ((b.state.getD row.toNat []).set col.toNat p),
    last_rows := b.last_rows.set col.toNat (row - 1) }

theorem play_perform_inv {b : Board} {col p st : Int} {b' : Board}
    (h : b.play col p = .ok (st, b')) (hst : st ≠ Board.INVALID_MOVE) :
    (0 ≤ col ∧ col < Board.width) ∧ (p = 1 ∨ p = -1) ∧
    b.check_validity (b.last_rows.getD col.toNat (-1)) col = true ∧
    st = b.think (b.last_rows.getD col.toNat (-1)) col p ∧
    b' = writeBoard b (b.last_rows.getD col.toNat (-1)) col p := by
  simp only [Board.play] at h
  split at h
  · injection h with h1
    injection h1 with h2 h3
    exact absurd h2.symm hst
  · rename_i hcol
    split at h
    · exact absurd h (by simp)
    · rename_i hpl
      split at h
      · rename_i hiv
        injection h with h1
        injection h1 with h2 h3
        exact absurd (h2.symm.trans hiv) hst
      · rename_i hinv
        injection h with h1
        injection h1 with h2 h3
        have hcv : b.check_validity (b.last_rows.getD col.toNat (-1)) col = true := by
          cases hcvv : b.check_validity (b.last_rows.getD col.toNat (-1)) col with
          | true => rfl
          | false =>
            refine absurd ?_ hinv
            simp only [Board.think]
            rw [hcvv]
            simp
        refine ⟨not_not.mp hcol, ?_, hcv, h2.symm, h3.symm⟩
        by_cases h1 : p = 1
        · exact Or.inl h1
        · refine Or.inr ?_
          by_contra h2
          exact hpl ⟨h1, h2⟩

theorem check_validity_inv {b : Board} {row col : Int}
    (h : b.check_validity row col = true) :
    0 ≤ row ∧ row < 7 ∧ 0 ≤ col ∧ col < 7 ∧ b.get row.toNat col.toNat = 0 ∧
      (row = 6 ∨ b.get (row.toNat + 1) col.toNat ≠ 0) := by
  simp only [Board.check_validity, Board.height, Board.width, Board.NOT_SET] at h
  split at h
  · exact absurd h (by simp)
  · rename_i hrow
    split at h
    · exact absurd h (by simp)
    · rename_i hcol
      split at h
      · exact absurd h (by simp)
      · rename_i hcell
        rw [not_not] at hrow hcol
        split at h
        · rename_i hbot
          exact ⟨hrow.1, hrow.2, hcol.1, hcol.2, not_not.mp hcell, Or.inl (by simpa using hbot)⟩
        · rename_i hbot
          exact ⟨hrow.1, hrow.2, hcol.1, hcol.2, not_not.mp hcell, Or.inr (by simpa using h)⟩

theorem think_win_or_valid {b : Board} {row col p : Int}
    (h : b.think row col p ≠ Board.INVALID_MOVE) :
    b.think row col p = Board.WIN ∨ b.think row col p = Board.VALID_MOVE := by
  simp only [Board.think] at h ⊢
  split at h
  · exact absurd rfl h
  · rename_i hc
    rw [if_neg hc]
    split
    · exact Or.inl rfl
    · exact Or.inr rfl

/-! ### C8: gravity invariant -/

/-- A raw grid is 7×7. -/
def ShapeState (s : List (List Int)) : Prop :=
  s.length = 7 ∧ ∀ row ∈ s, row.length = 7

/-- Gravity on a raw grid: an occupied cell has an occupied cell below it. -/
def GravityState (s : List (List Int)) : Prop :=
  ∀ c : Nat, c < 7 → ∀ r : Nat, r < 6 → cellD s r c ≠ 0 → cellD s (r + 1) c ≠ 0

theorem lastRowAux_spec (s : List (List Int)) (c : Nat) :
    ∀ n : Nat,
      (lastRowAux s c n = -1 ∧ ∀ r : Nat, r < n → cellD s r c ≠ 0) ∨
      (∃ r : Nat, r < n ∧ lastRowAux s c n = (r : Int) ∧ cellD s r c = 0 ∧
        ∀ r' : Nat, r < r' → r' < n → cellD s r' c ≠ 0)
  | 0 => Or.inl ⟨rfl, fun r hr => absurd hr (by omega)⟩
  | n + 1 => by
    by_cases h0 : cellD s n c = 0
    · refine Or.inr ⟨n, Nat.lt_succ_self n, by simp [lastRowAux, h0], h0, ?_⟩
      intro r' h1 h2
      exact absurd h1 (by omega)
    · rcases lastRowAux_spec s c n with ⟨hval, hall⟩ | ⟨r, hr, hval, h00, habove⟩
      · refine Or.inl ⟨by simp [lastRowAux, h0, hval], ?_⟩
        intro r hrn
        by_cases hrn' : r < n
        · exact hall r hrn'
        · have : r = n := by omega
          rw [this]
          exact h0
      · refine Or.inr ⟨r, by omega, by simp [lastRowAux, h0, hval], h00, ?_⟩
        intro r' h1 h2
        by_cases hlt : r' < n
        · exact habove r' h1 hlt
        · have : r' = n := by omega
          rw [this]
          exact h0

theorem occupied_up (s : List (List Int)) (hg : GravityState s) (c : Nat) (hc : c < 7) :
    ∀ (k r : Nat), r + k < 7 → cellD s r c ≠ 0 → cellD s (r + k) c ≠ 0
  | 0, r, _, h => h
  | k + 1, r, hlt, h => by
    have h1 : cellD s (r + 1) c ≠ 0 := hg c hc r (by omega) h
    have h2 := occupied_up s hg c hc k (r + 1) (by omega) h1
    have harr : r + 1 + k = r + (k + 1) := by omega
    rw [harr] at h2
    exact h2

theorem ofState_last_rows (s : List (List Int)) (c : Nat) (hc : c < 7) :
    (Board.ofState s).last_rows.getD c (-1) = lastRowAux s c 7 := by
  interval_cases c <;> rfl

theorem ofState_gravity (s : List (List Int)) (hg : GravityState s) :
    Gravity (Board.ofState s) := by
  intro c hc
  rw [ofState_last_rows s c hc]
  have hget : ∀ r : Nat, (Board.ofState s).get r c = cellD s r c := fun r => rfl
  rcases lastRowAux_spec s c 7 with ⟨hval, hall⟩ | ⟨r0, hr0, hval, h0, habove⟩
  · refine Or.inl ⟨hval, fun r hr => ?_⟩
    rw [hget]
    exact hall r hr
  · right
    rw [hval]
    refine ⟨by omega, by exact_mod_cast hr0, ?_, ?_⟩
    · intro r hr hgt
      rw [hget]
      exact habove r (by exact_mod_cast hgt) hr
    · intro r hr hle
      rw [hget]
      by_contra hne
      have hler : r ≤ r0 := by exact_mod_cast hle
      have hrr : r + (r0 - r) = r0 := by omega
      have := occupied_up s hg c hc (r0 - r) r (by omega) hne
      rw [hrr] at this
      exact this h0

theorem ofState_shape (s : List (List Int)) (hs : ShapeState s) : Shape (Board.ofState s) :=
  ⟨hs.1, hs.2, by simp [Board.ofState]⟩

theorem play_preserves_inv {b : Board} {col p st : Int} {b' : Board}
    (hs : Shape b) (hg : Gravity b) (h : b.play col p = .ok (st, b')) :
    Shape b' ∧ Gravity b' := by
  by_cases hst : st = Board.INVALID_MOVE
  · rw [play_invalid_unchanged h hst]
    exact ⟨hs, hg⟩
  · obtain ⟨⟨hc0, hc7⟩, hp, hcv, hstv, hb'⟩ := play_perform_inv h hst
    obtain ⟨hr0, hr7, _, _, hcell0, hbelow⟩ := check_validity_inv hcv
    obtain ⟨hslen, hrows, hllen⟩ := hs
    have hwidth : (7 : Int) = Board.width := rfl
    rw [← hwidth] at hc7
    have hcn7 : col.toNat < 7 := by omega
    have hrn7 : (b.last_rows.getD col.toNat (-1)).toNat < 7 := by omega
    have hrowlen : (b.state.getD (b.last_rows.getD col.toNat (-1)).toNat []).length = 7 :=
      hrows _ (getD_mem_of_lt _ _ _ (by omega))
    have hpne : p ≠ 0 := by rcases hp with h | h <;> omega
    have hget' : ∀ r c : Nat, b'.get r c =
        if r = (b.last_rows.getD col.toNat (-1)).toNat ∧ c = col.toNat then p
        else b.get r c := by
      intro r c
      rw [hb']
      exact cellD_write b.state _ _ p r c (by omega) (by omega)
    have hlr' : ∀ c : Nat, c < 7 → b'.last_rows.getD c (-1) =
        if c = col.toNat then b.last_rows.getD col.toNat (-1) - 1
        else b.last_rows.getD c (-1) := by
      intro c hc
      rw [hb']
      show (b.last_rows.set col.toNat _).getD c (-1) = _
      by_cases hcc : c = col.toNat
      · rw [if_pos hcc, hcc]
        exact getD_set_self _ _ _ _ (by omega)
      · rw [if_neg hcc]
        exact getD_set_ne _ _ _ _ _ (fun hh => hcc hh.symm)
    constructor
    · refine ⟨?_, ?_, ?_⟩
      · rw [hb']
        simpa [writeBoard] using hslen
      · intro row hrow
        rw [hb'] at hrow
        simp only [writeBoard] at hrow
        rcases mem_of_mem_set _ _ _ _ hrow with h | h
        · rw [h]
          simpa using hrowlen
        · exact hrows row h
      · rw [hb']
        simpa [writeBoard] using hllen
    · intro c hc
      rw [hlr' c hc]
      by_cases hcc : c = col.toNat
      · rw [if_pos hcc]
        subst hcc
        rcases hg col.toNat (by omega) with ⟨hneg, _⟩ | ⟨hge0, hlt7, hfill, hempty⟩
        · rw [hneg] at hr0
          exact absurd hr0 (by omega)
        · by_cases hzero : b.last_rows.getD col.toNat (-1) = 0
          · refine Or.inl ⟨by omega, ?_⟩
            intro r hrlt
            rw [hget' r col.toNat]
            by_cases hr : r = (b.last_rows.getD col.toNat (-1)).toNat
            · rw [if_pos ⟨hr, rfl⟩]
              exact hpne
            · rw [if_neg (fun hh => hr hh.1)]
              exact hfill r hrlt (by omega)
          · refine Or.inr ⟨by omega, by omega, ?_, ?_⟩
            · intro r hrlt hgt
              rw [hget' r col.toNat]
              by_cases hr : r = (b.last_rows.getD col.toNat (-1)).toNat
              · rw [if_pos ⟨hr, rfl⟩]
                exact hpne
              · rw [if_neg (fun hh => hr hh.1)]
                exact hfill r hrlt (by omega)
            · intro r hrlt hle
              rw [hget' r col.toNat]
              rw [if_neg (fun hh => by omega)]
              exact hempty r hrlt (by omega)
      · rw [if_neg hcc]
        rcases hg c hc with ⟨hneg, hallfull⟩ | ⟨hge0, hlt7, hfill, hempty⟩
        · refine Or.inl ⟨hneg, ?_⟩
          intro r hr
          rw [hget' r c, if_neg (fun hh => hcc hh.2)]
          exact hallfull r hr
        · refine Or.inr ⟨hge0, hlt7, ?_, ?_⟩
          · intro r hr hgt
            rw [hget' r c, if_neg (fun hh => hcc hh.2)]
            exact hfill r hr hgt
          · intro r hr hle
            rw [hget' r c, if_neg (fun hh => hcc hh.2)]
            exact hempty r hr hle

theorem reachable_shape_gravity : ∀ b, Reachable b → Shape b ∧ Gravity b := by
  intro b h
  induction h with
  | init => exact ⟨by unfold Shape; decide, by unfold Gravity Board.get; decide⟩
  | play b c p st b' hre hpl hst ih => exact play_preserves_inv ih.1 ih.2 hpl

/-- C8: every board reachable from the empty board satisfies the gravity
invariant; a `play` that returns preserves it; the from-state constructor
establishes it on any gravity-consistent 7×7 grid. -/
theorem C8_gravity_invariant :
    (∀ b, Reachable b → Gravity b) ∧
    (∀ (b : Board) (col p st : Int) (b' : Board), Shape b → Gravity b →
        b.play col p = .ok (st, b') → Gravity b') ∧
    (∀ s : List (List Int), ShapeState s → GravityState s → Gravity (Board.ofState s)) :=
  ⟨fun b h => (reachable_shape_gravity b h).2,
   fun _ _ _ _ _ hs hg h => (play_preserves_inv hs hg h).2,
   fun s _ hg => ofState_gravity s hg⟩

/-- The board after dropping `+1` into column 3 of the empty board. -/
def initPlayed : Board :=
  match Board.init.play 3 1 with
  | .ok (_, b) => b
  | .error _ => Board.init

/-- Witness for C8 at the empty board, one played move, and `drawState`. -/
theorem C8_gravity_invariant_witness :
    Gravity Board.init ∧ Gravity initPlayed ∧ Gravity (Board.ofState drawState) :=
  ⟨C8_gravity_invariant.1 Board.init Reachable.init,
   C8_gravity_invariant.2.1 Board.init 3 1 Board.VALID_MOVE initPlayed
     (by unfold Shape; decide) (by unfold Gravity Board.get; decide) rfl,
   C8_gravity_invariant.2.2 drawState (by unfold ShapeState; decide)
     (by unfold GravityState; decide)⟩

/-! ### C2 (amended) -/

theorem check_validity_true {b : Board} {row col : Int}
    (h1 : 0 ≤ row) (h2 : row < 7) (h3 : 0 ≤ col) (h4 : col < 7)
    (h5 : b.get row.toNat col.toNat = 0)
    (h6 : row = 6 ∨ b.get (row.toNat + 1) col.toNat ≠ 0) :
    b.check_validity row col = true := by
  unfold Board.check_validity
  rw [if_neg (not_not_intro ⟨h1, h2⟩)]
  rw [if_neg (not_not_intro ⟨h3, h4⟩)]
  rw [if_neg (not_not_intro (show b.get row.toNat col.toNat = Board.NOT_SET from h5))]
  rcases h6 with h6 | h6
  · rw [if_pos (h6.trans (by decide))]
  · by_cases hb : row = Board.height - 1
    · rw [if_pos hb]
    · rw [if_neg hb]
      exact decide_eq_true h6

theorem think_invalid_iff (b : Board) (row col p : Int) :
    b.think row col p = Board.INVALID_MOVE ↔ b.check_validity row col = false := by
  cases hcv : b.check_validity row col with
  | false =>
    simp only [Board.think, hcv]
    simp
  | true =>
    simp only [Board.think, hcv]
    rw [if_neg (by simp)]
    constructor
    · intro h
      exfalso
      split at h
      · exact absurd h (by decide)
      · exact absurd h (by decide)
    · intro h
      exact absurd h (by decide)

theorem full_iff_neg {b : Board} (hg : Gravity b) {col : Int}
    (h3 : 0 ≤ col) (h4 : col < 7) :
    (b.last_rows.getD col.toNat (-1) = -1 ↔ ∀ r : Nat, r < 7 → b.get r col.toNat ≠ 0) ∧
    (b.check_validity (b.last_rows.getD col.toNat (-1)) col = true ↔
      b.last_rows.getD col.toNat (-1) ≠ -1) := by
  have hcn : col.toNat < 7 := by omega
  rcases hg col.toNat hcn with ⟨hneg, hfull⟩ | ⟨hge0, hlt7, hfill, hempty⟩
  · constructor
    · exact Iff.intro (fun _ => hfull) (fun _ => hneg)
    · rw [hneg]
      have hfalse : b.check_validity (-1) col = false := by
        unfold Board.check_validity
        rw [if_pos (by intro hh; exact absurd hh.1 (by decide))]
      rw [hfalse]
      simp
  · have hne : b.last_rows.getD col.toNat (-1) ≠ -1 := by omega
    constructor
    · refine Iff.intro (fun h => absurd h hne) (fun hfull => ?_)
      exfalso
      have hrow_empty : b.get (b.last_rows.getD col.toNat (-1)).toNat col.toNat = 0 :=
        hempty (b.last_rows.getD col.toNat (-1)).toNat (by omega) (by omega)
      exact hfull (b.last_rows.getD col.toNat (-1)).toNat (by omega) hrow_empty
    · refine Iff.intro (fun _ => hne) (fun _ => ?_)
      refine check_validity_true hge0 hlt7 h3 h4
        (hempty (b.last_rows.getD col.toNat (-1)).toNat (by omega) (by omega)) ?_
      by_cases h6 : b.last_rows.getD col.toNat (-1) = 6
      · exact Or.inl h6
      · refine Or.inr (hfill ((b.last_rows.getD col.toNat (-1)).toNat + 1) (by omega) (by omega))

/-- C2 (amended): under the board invariant, `play` returns INVALID
exactly when the column is out of range or (the player id is valid and the
column is full); it raises exactly when the column is in range and the
player id is invalid; any performed move returns WIN or VALID and writes
the player into the dropped cell. -/
theorem C2_invalid_rejection
    (b : Board) (col player : Int) (hs : Shape b) (hg : Gravity b) :
    (b.play col player = .error () ↔
      (0 ≤ col ∧ col < Board.width) ∧ ¬(player = 1 ∨ player = -1)) ∧
    (∀ st b', b.play col player = .ok (st, b') →
      (st = Board.INVALID_MOVE ↔
        ¬(0 ≤ col ∧ col < Board.width) ∨
        ((player = 1 ∨ player = -1) ∧ ∀ r : Nat, r < 7 → b.get r col.toNat ≠ 0))) ∧
    (∀ st b', b.play col player = .ok (st, b') → st ≠ Board.INVALID_MOVE →
      (st = Board.WIN ∨ st = Board.VALID_MOVE) ∧
      b'.get (b.last_rows.getD col.toNat (-1)).toNat col.toNat = player) := by
  have hplayer_iff : ¬(player ≠ Board.PLAYER_1 ∧ player ≠ Board.PLAYER_2) ↔
      (player = 1 ∨ player = -1) := by
    constructor
    · intro h
      by_cases h1 : player = 1
      · exact Or.inl h1
      · refine Or.inr ?_
        by_contra h2
        exact h ⟨h1, h2⟩
    · rintro (h | h) ⟨h1, h2⟩
      · exact h1 h
      · exact h2 h
  refine ⟨?_, ?_, ?_⟩
  · simp only [Board.play]
    split
    · rename_i hcol
      constructor
      · intro h
        exact absurd h (by simp)
      · intro ⟨hc, _⟩
        exact absurd hc hcol
    · rename_i hcol
      rw [not_not] at hcol
      split
      · rename_i hpl
        constructor
        · intro _
          refine ⟨hcol, ?_⟩
          rintro (h | h)
          · exact hpl.1 h
          · exact hpl.2 h
        · intro _
          rfl
      · rename_i hpl
        constructor
        · intro h
          split at h <;> exact absurd h (by simp)
        · intro ⟨_, hnp⟩
          exact absurd (hplayer_iff.mp hpl) hnp
  · intro st b' h
    simp only [Board.play] at h
    split at h
    · rename_i hcol
      injection h with h1
      injection h1 with h2 h3
      refine Iff.intro (fun _ => Or.inl hcol) (fun _ => h2.symm)
    · rename_i hcol
      rw [not_not] at hcol
      split at h
      · exact absurd h (by simp)
      · rename_i hpl
        have hp : player = 1 ∨ player = -1 := hplayer_iff.mp hpl
        split at h
        · rename_i hiv
          injection h with h1
          injection h1 with h2 h3
          refine Iff.intro (fun _ => Or.inr ⟨hp, ?_⟩) (fun _ => h2.symm.trans hiv)
          have hchk_false : b.check_validity (b.last_rows.getD col.toNat (-1)) col = false :=
            (think_invalid_iff b _ col player).mp hiv
          have hlast : b.last_rows.getD col.toNat (-1) = -1 := by
            by_contra hne
            have := (full_iff_neg hg hcol.1 hcol.2).2.mpr hne
            rw [hchk_false] at this
            exact absurd this (by decide)
          exact (full_iff_neg hg hcol.1 hcol.2).1.mp hlast
        · rename_i hiv
          injection h with h1
          injection h1 with h2 h3
          refine Iff.intro (fun hst => absurd (h2.trans hst) hiv) (fun hrhs => ?_)
          exfalso
          rcases hrhs with hx | ⟨_, hfull⟩
          · exact hx hcol
          · have hlast : b.last_rows.getD col.toNat (-1) = -1 :=
              (full_iff_neg hg hcol.1 hcol.2).1.mpr hfull
            have hchk : b.check_validity (b.last_rows.getD col.toNat (-1)) col = true := by
              cases hcv : b.check_validity (b.last_rows.getD col.toNat (-1)) col with
              | true => rfl
              | false => exact absurd ((think_invalid_iff b _ col player).mpr hcv) hiv
            exact ((full_iff_neg hg hcol.1 hcol.2).2.mp hchk) hlast
  · intro st b' h hst
    obtain ⟨hcolr, hp, hcv, hstv, hb'⟩ := play_perform_inv h hst
    obtain ⟨hr0, hr7, _, _, hcell0, _⟩ := check_validity_inv hcv
    constructor
    · rw [hstv]
      refine think_win_or_valid ?_
      rw [← hstv]
      exact hst
    · rw [hb']
      have hb1 : (b.last_rows.getD col.toNat (-1)).toNat < b.state.length := by
        have := hs.1
        omega
      have hb2 : col.toNat < (b.state.getD (b.last_rows.getD col.toNat (-1)).toNat []).length := by
        have hmem := getD_mem_of_lt ([] : List Int) b.state
          (b.last_rows.getD col.toNat (-1)).toNat hb1
        have := hs.2.1 _ hmem
        have hw : col < Board.width := hcolr.2
        have hw7 : (7 : Int) = Board.width := rfl
        omega
      show cellD (b.state.set (b.last_rows.getD col.toNat (-1)).toNat
        ((b.state.getD (b.last_rows.getD col.toNat (-1)).toNat []).set col.toNat player))
        (b.last_rows.getD col.toNat (-1)).toNat col.toNat = player
      rw [cellD_write b.state _ _ player _ _ hb1 hb2]
      rw [if_pos ⟨rfl, rfl⟩]

/-- Witness for the amended C2 on the empty board. -/
theorem C2_invalid_rejection_witness :
    (Board.init.play 7 1 = .ok (Board.INVALID_MOVE, Board.init) ∧
      ¬((0 : Int) ≤ 7 ∧ (7 : Int) < Board.width)) ∧
    ((0 : Int) = Board.INVALID_MOVE ↔
      ¬((0 : Int) ≤ 7 ∧ (7 : Int) < Board.width) ∨
      (((1 : Int) = 1 ∨ (1 : Int) = -1) ∧
        ∀ r : Nat, r < 7 → Board.init.get r (7 : Int).toNat ≠ 0)) := by
  refine ⟨⟨rfl, by decide⟩, ?_⟩
  exact (C2_invalid_rejection Board.init 7 1 (by unfold Shape; decide)
    (by unfold Gravity Board.get; decide)).2.1 0 Board.init rfl

/-! ### C1: win detection -/

theorem prefixRun_all (p : Int) :
    ∀ (l : List Int) (j : Nat), j < prefixRun p l → l.getD j 0 = p
  | [], j, h => absurd h (by simp [prefixRun])
  | x :: xs, j, h => by
    by_cases hx : x = p
    · cases j with
      | zero => simpa using hx
      | succ j =>
        have hj : j < prefixRun p xs := by
          simp only [prefixRun, if_pos hx] at h
          omega
        simpa using prefixRun_all p xs j hj
    · simp only [prefixRun, if_neg hx] at h
      exact absurd h (by omega)

theorem prefixRun_ge (p : Int) (hp : p ≠ 0) :
    ∀ (l : List Int) (m : Nat), (∀ j : Nat, j < m → l.getD j 0 = p) → m ≤ prefixRun p l
  | _, 0, _ => Nat.zero_le _
  | [], m + 1, h => absurd (h 0 (by omega)).symm hp
  | x :: xs, m + 1, h => by
    have hx : x = p := by simpa using h 0 (by omega)
    have hrest : m ≤ prefixRun p xs :=
      prefixRun_ge p hp xs m (fun j hj => by simpa using h (j + 1) (by omega))
    simp only [prefixRun, if_pos hx]
    omega

theorem prefixRun_le_length (p : Int) : ∀ l : List Int, prefixRun p l ≤ l.length
  | [] => Nat.le_refl _
  | x :: xs => by
    by_cases hx : x = p
    · simp only [prefixRun, if_pos hx, List.length_cons]
      have := prefixRun_le_length p xs
      omega
    · simp only [prefixRun, if_neg hx]
      omega

theorem countLeft_all (arr : List Int) (p : Int) :
    ∀ (pos j : Nat), pos - countLeft arr p pos ≤ j → j < pos → arr.getD j 0 = p
  | 0, j, _, h2 => absurd h2 (by omega)
  | i + 1, j, h1, h2 => by
    by_cases hx : arr.getD i 0 = p
    · by_cases hj : j = i
      · rw [hj]
        exact hx
      · have hc : countLeft arr p (i + 1) = countLeft arr p i + 1 := by
          show (if arr.getD i 0 = p then countLeft arr p i + 1 else 0) = _
          rw [if_pos hx]
        rw [hc] at h1
        exact countLeft_all arr p i j (by omega) (by omega)
    · have hc : countLeft arr p (i + 1) = 0 := by
        show (if arr.getD i 0 = p then countLeft arr p i + 1 else 0) = 0
        rw [if_neg hx]
      rw [hc] at h1
      exact absurd h2 (by omega)

theorem countLeft_ge (arr : List Int) (p : Int) :
    ∀ (pos lo : Nat), (∀ j : Nat, lo ≤ j → j < pos → arr.getD j 0 = p) →
      pos - lo ≤ countLeft arr p pos
  | 0, lo, _ => by omega
  | i + 1, lo, h => by
    by_cases hlo : i + 1 ≤ lo
    · omega
    · have hx : arr.getD i 0 = p := h i (by omega) (by omega)
      have hrest : i - lo ≤ countLeft arr p i :=
        countLeft_ge arr p i lo (fun j hj1 hj2 => h j hj1 (by omega))
      simp only [countLeft, if_pos hx]
      omega

theorem countLeft_le (arr : List Int) (p : Int) : ∀ pos : Nat, countLeft arr p pos ≤ pos
  | 0 => Nat.le_refl _
  | i + 1 => by
    by_cases hx : arr.getD i 0 = p
    · simp only [countLeft, if_pos hx]
      have := countLeft_le arr p i
      omega
    · simp only [countLeft, if_neg hx]
      omega

theorem countLeft_congr (p : Int) :
    ∀ (a b : List Int) (pos : Nat),
      (∀ j : Nat, j < pos → a.getD j 0 = b.getD j 0) → countLeft a p pos = countLeft b p pos
  | _, _, 0, _ => rfl
  | a, b, i + 1, h => by
    have hi := h i (by omega)
    have ih := countLeft_congr p a b i (fun j hj => h j (by omega))
    show (if a.getD i 0 = p then countLeft a p i + 1 else 0) =
      (if b.getD i 0 = p then countLeft b p i + 1 else 0)
    rw [hi, ih]

theorem getD_drop_eq {α : Type} (d : α) :
    ∀ (l : List α) (n j : Nat), (l.drop n).getD j d = l.getD (n + j) d
  | [], n, j => by simp
  | _ :: _, 0, j => by rw [Nat.zero_add]; rfl
  | x :: xs, n + 1, j => by
    show (xs.drop n).getD j d = (x :: xs).getD (n + 1 + j) d
    rw [getD_drop_eq d xs n j]
    rw [show n + 1 + j = (n + j) + 1 from by omega]
    rfl

theorem drop_set_of_lt {α : Type} (a : α) :
    ∀ (l : List α) (i n : Nat), i < n → (l.set i a).drop n = l.drop n
  | [], _, _, _ => rfl
  | _ :: _, _, 0, h => absurd h (by omega)
  | _ :: xs, 0, n + 1, _ => rfl
  | _ :: xs, i + 1, n + 1, h => drop_set_of_lt a xs i n (by omega)

/-- The middle-out count of `_count` reaches `win_count` exactly when a run
of at least `win_count` cells equal to `p` passes through `pos`. -/
theorem count_iff_run (line : List Int) (pos : Nat) (p : Int) (hp : p ≠ 0)
    (hpos : pos < line.length) (hcell : line.getD pos 0 = p) :
    Board.win_count ≤ _count line pos p ↔ hasRunThrough line pos p := by
  have hwc : Board.win_count = 4 := rfl
  constructor
  · intro hcount
    unfold _count at hcount
    refine ⟨pos - countLeft line p pos, pos + prefixRun p (line.drop (pos + 1)), by omega,
      by omega, ?_, ?_, ?_⟩
    · have hdl : (line.drop (pos + 1)).length = line.length - (pos + 1) := by
        simp
      have := prefixRun_le_length p (line.drop (pos + 1))
      omega
    · have := countLeft_le line p pos
      omega
    · intro j hj1 hj2
      by_cases hlt : j < pos
      · exact countLeft_all line p pos j hj1 hlt
      · by_cases heq : j = pos
        · rw [heq]
          exact hcell
        · have hgt : pos + 1 ≤ j := by omega
          have hidx : j - (pos + 1) < prefixRun p (line.drop (pos + 1)) := by omega
          have := prefixRun_all p (line.drop (pos + 1)) (j - (pos + 1)) hidx
          rw [getD_drop_eq 0 line (pos + 1) (j - (pos + 1))] at this
          rw [show pos + 1 + (j - (pos + 1)) = j from by omega] at this
          exact this
  · rintro ⟨l, u, h1, h2, h3, h4, hcells⟩
    have hL : pos - l ≤ countLeft line p pos :=
      countLeft_ge line p pos l (fun j hj1 hj2 => hcells j hj1 (by omega))
    have hR : u - pos ≤ prefixRun p (line.drop (pos + 1)) := by
      refine prefixRun_ge p hp (line.drop (pos + 1)) (u - pos) ?_
      intro j hj
      rw [getD_drop_eq 0 line (pos + 1) j]
      exact hcells (pos + 1 + j) (by omega) (by omega)
    unfold _count
    omega

theorem map_set_eq {α β : Type} (f : α → β) :
    ∀ (l : List α) (i : Nat) (a : α), (l.set i a).map f = (l.map f).set i (f a)
  | [], _, _ => rfl
  | _ :: _, 0, _ => rfl
  | x :: xs, i + 1, a => by
    show f x :: (xs.set i a).map f = f x :: (xs.map f).set i (f a)
    rw [map_set_eq f xs i a]

/-- C1: for a reachable board, a performed `play(col, p)` returns WIN iff,
in the updated grid, the row through the placed cell or the column through
the placed cell contains a contiguous run of at least `win_count` cells
equal to `p` that includes the placed cell; otherwise it returns VALID. -/
theorem C1_win_detection (b : Board) (hreach : Reachable b) (col p : Int)
    (hc0 : 0 ≤ col) (hc7 : col < 7) (hp : p = 1 ∨ p = -1) (st : Int) (b' : Board)
    (h : b.play col p = .ok (st, b')) (hst : st ≠ Board.INVALID_MOVE) :
    (st = Board.WIN ∨ st = Board.VALID_MOVE) ∧
    (st = Board.WIN ↔
      hasRunThrough (b'.state.getD (b.last_rows.getD col.toNat (-1)).toNat [])
        col.toNat p ∨
      hasRunThrough (b'.colList col.toNat)
        (b.last_rows.getD col.toNat (-1)).toNat p) := by
  obtain ⟨hcolr, hpval, hcv, hstv, hb'⟩ := play_perform_inv h hst
  obtain ⟨hr0, hr7, _, _, hcell0, _⟩ := check_validity_inv hcv
  obtain ⟨hshape, hgrav⟩ := reachable_shape_gravity b hreach
  obtain ⟨hslen, hrows, hllen⟩ := hshape
  have hpne : p ≠ 0 := by rcases hp with h | h <;> omega
  have hrn : (b.last_rows.getD col.toNat (-1)).toNat < 7 := by omega
  have hcn : col.toNat < 7 := by omega
  have hrowlen : (b.state.getD (b.last_rows.getD col.toNat (-1)).toNat []).length = 7 :=
    hrows _ (getD_mem_of_lt _ _ _ (by omega))
  have hcollen : (b.colList col.toNat).length = 7 := by
    simp [Board.colList, hslen]
  have hrowlist : b'.state.getD (b.last_rows.getD col.toNat (-1)).toNat [] =
      (b.state.getD (b.last_rows.getD col.toNat (-1)).toNat []).set col.toNat p := by
    rw [hb']
    exact getD_set_self _ _ _ _ (by omega)
  have hcollist : b'.colList col.toNat = (b.colList col.toNat).set
      (b.last_rows.getD col.toNat (-1)).toNat p := by
    rw [hb']
    show (b.state.set _ _).map _ = _
    rw [map_set_eq]
    rw [getD_set_self _ _ _ _ (by omega)]
    rfl
  have hthink : st = if Board.win_count ≤
        _count (b.state.getD (b.last_rows.getD col.toNat (-1)).toNat []) col.toNat p ∨
      Board.win_count ≤ _count (b.colList col.toNat)
        (b.last_rows.getD col.toNat (-1)).toNat p then Board.WIN else Board.VALID_MOVE := by
    rw [hstv]
    simp only [Board.think, hcv]
    rw [if_neg (by simp)]
  have hcongr_row : _count ((b.state.getD (b.last_rows.getD col.toNat (-1)).toNat []).set
      col.toNat p) col.toNat p =
      _count (b.state.getD (b.last_rows.getD col.toNat (-1)).toNat []) col.toNat p := by
    unfold _count
    rw [countLeft_congr p _ _ col.toNat
      (fun j hj => getD_set_ne _ _ _ _ _ (fun hh => by omega))]
    rw [drop_set_of_lt _ _ _ _ (by omega)]
  have hcongr_col : _count ((b.colList col.toNat).set
      (b.last_rows.getD col.toNat (-1)).toNat p) (b.last_rows.getD col.toNat (-1)).toNat p =
      _count (b.colList col.toNat) (b.last_rows.getD col.toNat (-1)).toNat p := by
    unfold _count
    rw [countLeft_congr p _ _ _
      (fun j hj => getD_set_ne _ _ _ _ _ (fun hh => by omega))]
    rw [drop_set_of_lt _ _ _ _ (by omega)]
  have hrun_row : Board.win_count ≤
      _count (b.state.getD (b.last_rows.getD col.toNat (-1)).toNat []) col.toNat p ↔
      hasRunThrough (b'.state.getD (b.last_rows.getD col.toNat (-1)).toNat []) col.toNat p := by
    rw [hrowlist, ← hcongr_row]
    refine count_iff_run
      ((b.state.getD (b.last_rows.getD col.toNat (-1)).toNat []).set col.toNat p)
      col.toNat p hpne ?_ (getD_set_self _ _ _ _ (by omega))
    rw [List.length_set]
    omega
  have hrun_col : Board.win_count ≤
      _count (b.colList col.toNat) (b.last_rows.getD col.toNat (-1)).toNat p ↔
      hasRunThrough (b'.colList col.toNat) (b.last_rows.getD col.toNat (-1)).toNat p := by
    rw [hcollist, ← hcongr_col]
    refine count_iff_run
      ((b.colList col.toNat).set (b.last_rows.getD col.toNat (-1)).toNat p)
      (b.last_rows.getD col.toNat (-1)).toNat p hpne ?_ (getD_set_self _ _ _ _ (by omega))
    rw [List.length_set]
    omega
  constructor
  · rw [hstv]
    refine think_win_or_valid ?_
    rw [← hstv]
    exact hst
  · rw [hthink]
    split
    · rename_i hcond
      refine Iff.intro (fun _ => ?_) (fun _ => rfl)
      rcases hcond with hcond | hcond
      · exact Or.inl (hrun_row.mp hcond)
      · exact Or.inr (hrun_col.mp hcond)
    · rename_i hcond
      refine Iff.intro (fun hh => absurd hh (by decide)) (fun hrun => ?_)
      exfalso
      rcases hrun with hrun | hrun
      · exact hcond (Or.inl (hrun_row.mpr hrun))
      · exact hcond (Or.inr (hrun_col.mpr hrun))

/-- One `+1` token dropped into column 0 of the empty board. -/
def stack1 : Board :=
  match Board.init.play 0 1 with
  | .ok (_, b) => b
  | .error _ => Board.init

/-- Two `+1` tokens stacked in column 0. -/
def stack2 : Board :=
  match stack1.play 0 1 with
  | .ok (_, b) => b
  | .error _ => stack1

/-- The board after the winning fourth drop into column 0. -/
def wonBoard : Board :=
  match threeStackBoard.play 0 1 with
  | .ok (_, b) => b
  | .error _ => threeStackBoard

/-- Witness for C1: the vertical four-in-a-row win on `threeStackBoard`. -/
theorem C1_win_detection_witness :
    ((Board.WIN : Int) = Board.WIN ∨ (Board.WIN : Int) = Board.VALID_MOVE) ∧
    ((Board.WIN : Int) = Board.WIN ↔
      hasRunThrough
        (wonBoard.state.getD (threeStackBoard.last_rows.getD (0 : Int).toNat (-1)).toNat [])
        (0 : Int).toNat 1 ∨
      hasRunThrough (wonBoard.colList (0 : Int).toNat)
        (threeStackBoard.last_rows.getD (0 : Int).toNat (-1)).toNat 1) := by
  have h1 : Reachable stack1 :=
    Reachable.play Board.init 0 1 Board.VALID_MOVE stack1 Reachable.init rfl (by decide)
  have h2 : Reachable stack2 :=
    Reachable.play stack1 0 1 Board.VALID_MOVE stack2 h1 rfl (by decide)
  have h3 : Reachable threeStackBoard :=
    Reachable.play stack2 0 1 Board.VALID_MOVE threeStackBoard h2 rfl (by decide)
  exact C1_win_detection threeStackBoard h3 0 1 (by decide) (by decide) (Or.inl rfl)
    Board.WIN wonBoard rfl (by decide)

/-! ### C7: task/moves round trip -/

/-- Trees produced by `create_tree`: every node's children carry pairwise
distinct, non-`None` moves. -/
inductive WFTree : Node → Prop where
  | mk (d : NodeData) (cs : List Node) :
      (∀ c ∈ cs, WFTree c) →
      (cs.map Node.move).Nodup →
      (∀ c ∈ cs, c.move ≠ none) →
      WFTree (Node.mk d cs)

theorem WFTree.children_wf {n : Node} (h : WFTree n) : ∀ c ∈ n.children, WFTree c := by
  cases h with
  | mk d cs h1 h2 h3 => exact h1

theorem WFTree.moves_nodup {n : Node} (h : WFTree n) : (n.children.map Node.move).Nodup := by
  cases h with
  | mk d cs h1 h2 h3 => exact h2

theorem WFTree.moves_some {n : Node} (h : WFTree n) : ∀ c ∈ n.children, c.move ≠ none := by
  cases h with
  | mk d cs h1 h2 h3 => exact h3

theorem enumFrom_filterMap_aux (P : Int → Prop) [DecidablePred P] :
    ∀ (l : List Int) (k : Nat),
      (((List.enumFrom k l).filterMap fun q =>
          if P q.2 then some ((q.1 : Int)) else none).Nodup) ∧
      (∀ x ∈ (List.enumFrom k l).filterMap fun q =>
          if P q.2 then some ((q.1 : Int)) else none, (k : Int) ≤ x)
  | [], k => ⟨List.nodup_nil, fun x hx => absurd hx (by simp)⟩
  | e :: l, k => by
    obtain ⟨ih1, ih2⟩ := enumFrom_filterMap_aux P l (k + 1)
    have henum : List.enumFrom k (e :: l) = (k, e) :: List.enumFrom (k + 1) l := rfl
    rw [henum]
    by_cases hP : P e
    · have hf : (fun q : Nat × Int => if P q.2 then some ((q.1 : Int)) else none) (k, e) =
          some ((k : Int)) := by simp [hP]
      simp only [List.filterMap_cons, hf]
      constructor
      · rw [List.nodup_cons]
        refine ⟨fun hmem => ?_, ih1⟩
        have := ih2 _ hmem
        push_cast at this
        omega
      · intro x hx
        rcases List.mem_cons.mp hx with h | h
        · rw [h]
        · have := ih2 x h
          push_cast at this ⊢
          omega
    · have hf : (fun q : Nat × Int => if P q.2 then some ((q.1 : Int)) else none) (k, e) =
          none := by simp [hP]
      simp only [List.filterMap_cons, hf]
      refine ⟨ih1, fun x hx => ?_⟩
      have := ih2 x hx
      push_cast at this ⊢
      omega

theorem valid_moves_nodup (b : Board) : b.valid_moves.Nodup :=
  (enumFrom_filterMap_aux (fun e => 0 ≤ e ∧ e < Board.height) b.last_rows 0).1

theorem play_node_move {me : Int} {b : Board} {m player : Int} {r : PlayNodeResult}
    (h : play_node me b m player = .ok r) :
    r.node.move = some m ∧ r.node.children = [] := by
  unfold play_node at h
  cases hp : b.play m player with
  | error e =>
    rw [hp] at h
    exact absurd h (by simp)
  | ok sb =>
    obtain ⟨status, b2⟩ := sb
    rw [hp] at h
    simp only [] at h
    split at h
    · split at h
      · injection h with h1
        rw [← h1]
        exact ⟨rfl, rfl⟩
      · injection h with h1
        rw [← h1]
        exact ⟨rfl, rfl⟩
    · injection h with h1
      rw [← h1]
      exact ⟨rfl, rfl⟩

theorem create_children_wf_aux
    (rec : Int → Board → Int → Int → Except Unit (Node × Bool × Bool))
    (hrec : ∀ m b' d p' c mw ml, rec m b' d p' = .ok (c, mw, ml) →
        WFTree c ∧ c.move = some m)
    (bcopy : Board) (depth maxD player : Int) :
    ∀ (ms : List Int) (acc out : List Node × Bool × Bool),
      (List.foldlM (fun acc m =>
          if depth < maxD then do
            let (c, mw, ml) ← rec m bcopy (depth + 1) (player * -1)
            pure (acc.1 ++ [c], acc.2.1 || mw, acc.2.2 || ml)
          else pure acc) acc ms) = .ok out →
      (∀ k ∈ out.1, k ∈ acc.1 ∨ WFTree k) ∧
      out.1.map Node.move =
        acc.1.map Node.move ++ (if depth < maxD then ms.map some else [])
  | [], acc, out => by
    intro h
    simp only [List.foldlM] at h
    have hout : acc = out := by
      simpa [pure, Except.pure] using h
    rw [← hout]
    constructor
    · exact fun k hk => Or.inl hk
    · split <;> simp
  | m :: ms, acc, out => by
    intro h
    rw [List.foldlM_cons] at h
    obtain ⟨acc', hstep, hrest⟩ := exceptBind_ok h
    by_cases hd : depth < maxD
    · rw [if_pos hd] at hstep
      obtain ⟨⟨c, mw, ml⟩, hc, hpure⟩ := exceptBind_ok hstep
      have hacc' : acc' = (acc.1 ++ [c], acc.2.1 || mw, acc.2.2 || ml) := by
        simpa [pure, Except.pure] using hpure.symm
      obtain ⟨hcwf, hcmove⟩ := hrec m bcopy (depth + 1) (player * -1) c mw ml hc
      obtain ⟨ih1, ih2⟩ := create_children_wf_aux rec hrec bcopy depth maxD player ms acc' out hrest
      constructor
      · intro k hk
        rcases ih1 k hk with hmem | hwf
        · rw [hacc'] at hmem
          rcases List.mem_append.mp hmem with hmem | hmem
          · exact Or.inl hmem
          · simp at hmem
            rw [hmem]
            exact Or.inr hcwf
        · exact Or.inr hwf
      · rw [ih2, hacc']
        simp [hd, hcmove]
    · rw [if_neg hd] at hstep
      have hacc' : acc' = acc := by simpa [pure, Except.pure] using hstep.symm
      obtain ⟨ih1, ih2⟩ := create_children_wf_aux rec hrec bcopy depth maxD player ms acc' out hrest
      rw [hacc'] at ih1 ih2
      refine ⟨ih1, ?_⟩
      rw [ih2]
      rw [if_neg hd, if_neg hd]

theorem create_children_wf
    {rec : Int → Board → Int → Int → Except Unit (Node × Bool × Bool)}
    (hrec : ∀ m b' d p' c mw ml, rec m b' d p' = .ok (c, mw, ml) →
        WFTree c ∧ c.move = some m)
    {b : Board} {depth maxD player : Int} {kids : List Node} {w l : Bool}
    (h : create_children rec b depth maxD player = .ok (kids, w, l)) :
    (∀ k ∈ kids, WFTree k) ∧ (kids.map Node.move).Nodup ∧
      (∀ k ∈ kids, k.move ≠ none) := by
  unfold create_children at h
  obtain ⟨hmem, hmap⟩ := create_children_wf_aux rec hrec b.copy depth maxD player
    b.valid_moves ([], false, false) (kids, w, l) h
  simp only [List.map_nil, List.nil_append] at hmap
  refine ⟨?_, ?_, ?_⟩
  · intro k hk
    rcases hmem k hk with hmem' | hwf
    · exact absurd hmem' (by simp)
    · exact hwf
  · rw [hmap]
    split
    · exact (valid_moves_nodup b).map (Option.some_injective Int)
    · exact List.nodup_nil
  · intro k hk
    have hmm : k.move ∈ kids.map Node.move := List.mem_map_of_mem _ hk
    rw [hmap] at hmm
    split at hmm
    · obtain ⟨mv, _, hmv⟩ := List.mem_map.mp hmm
      rw [← hmv]
      simp
    · exact absurd hmm (by simp)

theorem create_subtree_wf (me maxD : Int) :
    ∀ (fuel : Nat) (m : Int) (b : Board) (depth player : Int) (c : Node) (mw ml : Bool),
      create_subtree me maxD fuel m b depth player = .ok (c, mw, ml) →
      WFTree c ∧ c.move = some m
  | 0, m, b, depth, player, c, mw, ml => by
    intro h
    exact absurd h (by simp [create_subtree])
  | fuel + 1, m, b, depth, player, c, mw, ml => by
    intro h
    unfold create_subtree at h
    obtain ⟨r, hr, hrest⟩ := exceptBind_ok h
    obtain ⟨hmove, hchild⟩ := play_node_move hr
    cases hrn : r.node with
    | mk d0 cs0 =>
      have hcs0 : cs0 = [] := by
        rw [hrn] at hchild
        simpa using hchild
      have hd0move : d0.move = some m := by
        rw [hrn] at hmove
        simpa [Node.move] using hmove
      split at hrest
      · have hcr : (r.node, r.markWinner, r.markLoser) = (c, mw, ml) := by
          simpa [pure, Except.pure] using hrest
        have hc : c = r.node := by
          injection hcr with h1 h2
          exact h1.symm
        rw [hc, hrn, hcs0]
        refine ⟨WFTree.mk d0 [] (fun c hc => absurd hc (by simp)) List.nodup_nil
          (fun c hc => absurd hc (by simp)), ?_⟩
        simpa [Node.move] using hd0move
      · obtain ⟨⟨kids, w, l⟩, hkids, hpure⟩ := exceptBind_ok hrest
        have hc : c = Node.mk { r.node.data with winner := r.node.winner || w, loser := r.node.loser || l } (r.node.children ++ kids) := by
          injection hpure with h1
          injection h1 with h2 h3
          exact h2.symm
        obtain ⟨hwf, hnodup, hsome⟩ :=
          create_children_wf (create_subtree_wf me maxD fuel) hkids
        rw [hc, hchild, List.nil_append]
        exact ⟨WFTree.mk _ kids hwf hnodup hsome, hmove⟩

theorem create_tree_wf {b : Board} {player maxD : Int} {root : Node}
    (h : create_tree b player maxD = .ok root) : WFTree root := by
  unfold create_tree at h
  obtain ⟨⟨kids, w, l⟩, hkids, hpure⟩ := exceptBind_ok h
  obtain ⟨hwf, hnodup, hsome⟩ :=
    create_children_wf (create_subtree_wf player maxD (maxD.toNat + 1)) hkids
  have hr : root = Node.mk { score := 0, total := 0, move := none, status := none, winner := w, loser := l, player := player * -1, state := b.state } kids := by
    injection hpure with h1
    exact h1.symm
  rw [hr]
  exact WFTree.mk _ kids hwf hnodup hsome

theorem filter_move_eq (c : Node) :
    ∀ (cs : List Node), (cs.map Node.move).Nodup → c ∈ cs →
      (cs.filter fun x => x.move = c.move) = [c]
  | [], _, hc => absurd hc (by simp)
  | x :: rest, hnd, hc => by
    rw [List.map_cons, List.nodup_cons] at hnd
    rcases List.mem_cons.mp hc with hcx | hcr
    · have hrest : (rest.filter fun y => y.move = c.move) = [] := by
        refine List.filter_eq_nil_iff.mpr ?_
        intro y hy
        simp only [decide_eq_true_eq]
        intro heq
        refine hnd.1 ?_
        rw [hcx] at heq
        rw [← heq]
        exact List.mem_map_of_mem Node.move hy
      rw [List.filter_cons, if_pos (by simp [hcx]), hrest, hcx]
    · have hx : ¬(x.move = c.move) := by
        intro heq
        refine hnd.1 ?_
        rw [heq]
        exact List.mem_map_of_mem Node.move hcr
      rw [List.filter_cons, if_neg (by simpa using hx)]
      exact filter_move_eq c rest hnd.2 hcr

theorem childByMove_eq {d : NodeData} {cs : List Node} (hnd : (cs.map Node.move).Nodup)
    {c : Node} (hc : c ∈ cs) : childByMove (Node.mk d cs) c.move = some c := by
  unfold childByMove
  rw [Node.children_mk, filter_move_eq c cs hnd hc]
  rfl

theorem mem_foldl_append {α β : Type} (g : β → List α) :
    ∀ (cs : List β) (acc : List α) (x : α),
      (x ∈ cs.foldl (fun acc c => acc ++ g c) acc ↔ x ∈ acc ∨ ∃ c ∈ cs, x ∈ g c)
  | [], acc, x => by simp
  | c :: cs, acc, x => by
    rw [List.foldl_cons, mem_foldl_append g cs (acc ++ g c) x]
    simp only [List.mem_append, List.mem_cons]
    constructor
    · rintro ((h | h) | ⟨c', hc', hx⟩)
      · exact Or.inl h
      · exact Or.inr ⟨c, Or.inl rfl, h⟩
      · exact Or.inr ⟨c', Or.inr hc', hx⟩
    · rintro (h | ⟨c', rfl | hc', hx⟩)
      · exact Or.inl (Or.inl h)
      · exact Or.inl (Or.inr hx)
      · exact Or.inr ⟨c', hc', hx⟩

theorem tasksRecurse_roundtrip (maxD : Int) :
    ∀ (fuel : Nat) (ex : List (Option Int)) (move : Option Int) (depth : Int) (node : Node),
      WFTree node →
      ∀ T ∈ tasksRecurse maxD fuel ex move depth node,
        ∃ suffix n, T.moves = (ex ++ moveApp move) ++ suffix ∧
          get_move suffix node = some n ∧ n.state = T.state ∧ n.player = T.player
  | 0, ex, move, depth, node => by
    intro hwf T hT
    exact absurd hT (by simp [tasksRecurse])
  | fuel + 1, ex, move, depth, node => by
    intro hwf T hT
    obtain ⟨d, cs⟩ := node
    simp only [tasksRecurse, Node.children_mk] at hT
    by_cases hflag : ((Node.mk d cs).winner || (Node.mk d cs).loser) = true
    · rw [if_pos hflag] at hT
      exact absurd hT (by simp)
    · rw [if_neg hflag] at hT
      by_cases hempty : cs.isEmpty
      · rw [if_pos hempty] at hT
        simp only [List.mem_singleton] at hT
        refine ⟨[], Node.mk d cs, ?_, rfl, ?_, ?_⟩
        · rw [hT]
          simp
        · rw [hT]
        · rw [hT]
      · rw [if_neg hempty] at hT
        by_cases hd : depth < maxD
        · simp only [if_pos hd] at hT
          rw [mem_foldl_append
            (fun child => tasksRecurse maxD fuel (ex ++ moveApp move) child.move
              (depth + 1) child) cs [] T] at hT
          rcases hT with hT | ⟨child, hchild, hT⟩
          · exact absurd hT (by simp)
          · have hcwf : WFTree child := hwf.children_wf child hchild
            have hcsome : child.move ≠ none := hwf.moves_some child hchild
            obtain ⟨mc, hmc⟩ := Option.ne_none_iff_exists'.mp hcsome
            obtain ⟨suffix, n, hm, hg, hs, hp⟩ := tasksRecurse_roundtrip maxD fuel
              (ex ++ moveApp move) child.move (depth + 1) child hcwf T hT
            refine ⟨moveApp child.move ++ suffix, n, ?_, ?_, hs, hp⟩
            · rw [hm, List.append_assoc]
            · have hcbm : childByMove (Node.mk d cs) (some mc) = some child := by
                rw [← hmc]
                exact childByMove_eq hwf.moves_nodup hchild
              rw [hmc]
              show get_move (some mc :: suffix) (Node.mk d cs) = some n
              simp [get_move, hcbm, hg]
        · simp only [if_neg hd] at hT
          rw [mem_foldl_append
            (fun child => [(⟨none, child.state, (ex ++ moveApp move) ++ [child.move],
              child.player⟩ : Task)]) cs [] T] at hT
          rcases hT with hT | ⟨child, hchild, hT⟩
          · exact absurd hT (by simp)
          · simp only [List.mem_singleton] at hT
            have hcbm : childByMove (Node.mk d cs) child.move = some child :=
              childByMove_eq hwf.moves_nodup hchild
            refine ⟨[child.move], child, ?_, ?_, ?_, ?_⟩
            · rw [hT]
            · simp [get_move, hcbm]
            · rw [hT]
            · rw [hT]

/-- C7: every task generated by `_create_tasks` from a `create_tree` tree
carries a moves path that `get_move` resolves, from the tree root, to the
node the task was generated from: the looked-up node carries exactly the
task's state and player. -/
theorem C7_task_roundtrip (b : Board) (me maxDc : Int) (root : Node) (maxDt : Int) (T : Task)
    (hroot : create_tree b me maxDc = .ok root) (hT : T ∈ _create_tasks root maxDt) :
    ∃ n, get_move T.moves root = some n ∧ n.state = T.state ∧ n.player = T.player := by
  have hwf : WFTree root := create_tree_wf hroot
  obtain ⟨suffix, n, hm, hg, hs, hp⟩ :=
    tasksRecurse_roundtrip maxDt (maxDt.toNat + 1) [] none 1 root hwf T hT
  refine ⟨n, ?_, hs, hp⟩
  rw [hm]
  simpa [moveApp] using hg

def defaultNode : Node := Node.mk ⟨0, 0, none, none, false, false, 0, []⟩ []

/-- The pre-computed tree of depth 2 over `nearFullBoard`. -/
def c7root : Node :=
  match create_tree nearFullBoard 1 2 with
  | .ok r => r
  | .error _ => defaultNode

/-- The first task generated from `c7root`. -/
def c7task : Task := (_create_tasks c7root 2).headD ⟨none, [], [], 0⟩

/-- Witness for C7: the first task of the near-full tree round-trips. -/
theorem C7_task_roundtrip_witness :
    c7task ∈ _create_tasks c7root 2 ∧
    (∃ n, get_move c7task.moves c7root = some n ∧
      n.state = c7task.state ∧ n.player = c7task.player) := by
  refine ⟨by decide, ?_⟩
  exact C7_task_roundtrip nearFullBoard 1 2 c7root 2 c7task rfl (by decide)

end Connect4
